import Mathlib

/-!
Verification of the clearsight-news text-analysis core.

This file gives a shallow embedding, in Lean 4, of the pure computational
core of the `news_insight_app` Python package:

* shared text utilities (`str.strip`, `str.split`, whitespace tokenization),
  as used by `_truncate_text`, `_chunk_text` and the fallback tokenizer;
* the tokenizer provider (`tokenizer_utils.py`);
* token-id normalization (`analysis_service._normalize_token_ids`);
* the sentence chunker (`services._chunk_text`, `_split_long_sentence`,
  `_get_max_chunk_tokens`);
* the sentiment facades (`SentimentService.analyze`,
  `GroqSentimentService.analyze`);
* the rhetoric/comparison normalizers (`analysis_service.analyze_rhetoric`,
  `compare_article_texts` and their Groq twins).

Python strings are modelled as `List Char`; Python's float constants
`-1.0 / 0.0 / 1.0` used by the sentiment mapping are exactly representable
and are modelled as `Int`.  Calls into the Python standard library that are
not themselves repository code (`json.loads`, `json.JSONDecoder.raw_decode`,
the salted builtin `hash`, wall-clock timing) are modelled by explicit
oracle parameters; everything the repository itself computes is translated
from the source.
-/

/-- Python strings, modelled as lists of characters. -/
abbrev PyStr := List Char

/-- Whitespace test mirroring Python's `str.strip` / `str.split` default
whitespace set (space, tab, newline, carriage return, vertical tab,
form feed). -/
def pyIsSpace (c : Char) : Bool :=
  c = ' ' || c = '\t' || c = '\n' || c = '\r' || c = Char.ofNat 11 || c = Char.ofNat 12

/-- Negation of `pyIsSpace`, used for word scanning. -/
def pyNotSpace (c : Char) : Bool := !(pyIsSpace c)

/-- Python `str.lstrip()` (no arguments): drop leading whitespace. -/
def pyLstrip (s : PyStr) : PyStr := s.dropWhile pyIsSpace

/-- Python `str.rstrip()` (no arguments): drop trailing whitespace. -/
def pyRstrip (s : PyStr) : PyStr := (s.reverse.dropWhile pyIsSpace).reverse

/-- Python `str.strip()` (no arguments): drop surrounding whitespace. -/
def pyStrip (s : PyStr) : PyStr := pyRstrip (pyLstrip s)

/-- Python `str.split()` with no separator: the whitespace-separated words
of a string, with empty pieces dropped.  This is also the `encode` method of
the repository's fallback tokenizer (`tokenizer_utils.create_fallback_tokenizer`):
`[token for token in text.split() if token]`. -/
def pyWords : PyStr → List PyStr
  | [] => []
  | c :: cs =>
    if pyIsSpace c then pyWords cs
    else (c :: cs.takeWhile pyNotSpace) :: pyWords (cs.dropWhile pyNotSpace)
termination_by s => s.length
decreasing_by
  all_goals simp
  have := (List.dropWhile_sublist (l := cs) pyNotSpace).length_le
  omega

/-- Python `" ".join(...)` as used by `_chunk_text` and by the fallback
tokenizer's `decode`: interleave a single space between the pieces. -/
def joinSpace : List PyStr → PyStr
  | [] => []
  | [s] => s
  | s :: rest => s ++ ' ' :: joinSpace rest

/-- Characters of a string with every `'.'` removed; the content
normalization used to state the chunking round-trip (chunking splits on
periods and re-suffixes them, so content is compared with periods and
whitespace normalized away). -/
def dropDots (s : PyStr) : PyStr := s.filter (fun c => c ≠ '.')

/-- Word-level content of a string: its whitespace-separated words with
periods removed. -/
def contentOf (s : PyStr) : List PyStr := pyWords (dropDots s)

/-- Python `text.split('.')`: split on every `'.'`, keeping empty pieces. -/
def splitOnDot : PyStr → List PyStr
  | [] => [[]]
  | c :: cs =>
    if c = '.' then [] :: splitOnDot cs
    else (splitOnDot cs).modifyHead (c :: ·)

/-- Python `str.lower()` restricted to ASCII case mapping (the repository
only ever lowercases ASCII model output keywords). -/
def pyLower (s : PyStr) : PyStr := s.map Char.toLower

/-- Python substring membership `pat in hay`. -/
def containsSub (hay pat : PyStr) : Bool :=
  if pat.isPrefixOf hay then true
  else
    match hay with
    | [] => false
    | _ :: t => containsSub t pat

/-- Opening brace character, `chr(123)`. -/
def lbrace : Char := Char.ofNat 123

/-- Closing brace character, `chr(125)`. -/
def rbrace : Char := Char.ofNat 125

/-- Shared truncation helper `_truncate_text` (identical in
`analysis_service.py` and `groq_service.py`): trim surrounding whitespace;
if the trimmed length is within `limit` return it verbatim, otherwise cut at
`limit` characters, strip trailing whitespace and append `" ..."`. -/
def truncateText (text : PyStr) (limit : Nat) : PyStr :=
  let trimmed := pyStrip text
  if trimmed.length ≤ limit then trimmed
  else pyRstrip (trimmed.take limit) ++ (" ...".toList)

/-! ## Tokenizer provider (`tokenizer_utils.py`) -/

/-- Attribute surface of a tokenizer object as consumed by
`services._get_max_chunk_tokens`: `model_max_length` (absent or `None`
modelled as `none`) and `num_special_tokens_to_add(pair=False)`. -/
structure TokSpec where
  modelMaxLength : Option Nat
  numSpecialToAdd : Nat
deriving DecidableEq

/-- Attribute values of the fallback tokenizer built by
`create_fallback_tokenizer`: `model_max_length = 512`,
`num_special_tokens_to_add(pair=False) = 2`. -/
def fallbackTokSpec : TokSpec := ⟨some 512, 2⟩

/-- The fallback tokenizer's `encode(text, add_special_tokens=False)`:
`[token for token in text.split() if token]`. -/
def fallbackEncode (text : PyStr) : List PyStr := pyWords text

/-- The fallback tokenizer's `decode(tokens, skip_special_tokens=True)`:
`" ".join(tokens)`. -/
def fallbackDecode (tokens : List PyStr) : PyStr := joinSpace tokens

/-- State of a `TokenizerProvider`: the `_tokenizers` cache mapping a model
name to the tokenizer instance that was constructed for it, plus a counter
of constructions so far.  Since `get_tokenizer` only ever constructs
fallback tokenizers, which all behave identically, an instance is
represented by the (unique) index of its construction. -/
structure ProviderState where
  cache : List (String × Nat)
  builds : Nat
deriving DecidableEq

/-- The `TokenizerProvider.get_tokenizer(model_name)`: return the cached
tokenizer for `model_name`, constructing (`create_fallback_tokenizer()`)
and caching one on a cache miss. -/
def getTokenizer (st : ProviderState) (modelName : String) : Nat × ProviderState :=
  match st.cache.lookup modelName with
  | some t => (t, st)
  | none => (st.builds, ⟨st.cache ++ [(modelName, st.builds)], st.builds + 1⟩)

/-- The `TokenizerProvider.count_tokens(text, model_name)`: `0` for empty text,
otherwise the length of `tokenizer.encode(text, add_special_tokens=False)`
for the tokenizer obtained from `get_tokenizer` (every tokenizer the
provider ever holds is a fallback tokenizer, whose `encode` is
whitespace splitting).  The resulting provider state is returned alongside
the count to make cache effects observable. -/
def countTokens (st : ProviderState) (text : PyStr) (modelName : String) :
    Nat × ProviderState :=
  if text = [] then (0, st)
  else ((fallbackEncode text).length, (getTokenizer st modelName).2)

/-! ## Token-id normalization (`analysis_service._normalize_token_ids`) -/

/-- A Python token id handed to `_normalize_token_ids`: either an `int`, or
any other object, represented by its `str()` rendering. -/
inductive PyTok where
  | int (n : Int)
  | other (repr : PyStr)
deriving DecidableEq

/-- Image of one token under the loop body of `_normalize_token_ids`:
integers pass through, anything else becomes
`abs(hash(str(token))) % (10 ** 6)`.  The builtin `hash` is modelled by the
oracle `h` on the token's `str()` form. -/
def normalizeTok (h : PyStr → Int) : PyTok → Int
  | .int n => n
  | .other r => |h r| % (10 ^ 6 : Int)

/-- Loop of `_normalize_token_ids`: `result` accumulates until
`len(result) >= max_tokens` breaks out. -/
def normalizeTokenIdsGo (h : PyStr → Int) (maxTokens : Int) :
    List PyTok → List Int → List Int
  | [], result => result
  | t :: rest, result =>
    if (result.length : Int) ≥ maxTokens then result
    else normalizeTokenIdsGo h maxTokens rest (result ++ [normalizeTok h t])

/-- The `_normalize_token_ids(token_ids, max_tokens)`. -/
def normalizeTokenIds (h : PyStr → Int) (tokenIds : List PyTok) (maxTokens : Int) :
    List Int :=
  normalizeTokenIdsGo h maxTokens tokenIds []

/-! ## Text chunker (`services.py`) -/

/-- The `services._get_max_chunk_tokens(tokenizer, max_tokens)`: clamp the
caller budget by the tokenizer's usable context
(`model_max_length` minus special-token overhead, floored at 1), treating a
missing/`None` model max or one above `100000` as unbounded. -/
def getMaxChunkTokens (ts : TokSpec) (maxTokens : Nat) : Nat :=
  let modelMax :=
    match ts.modelMaxLength with
    | none => maxTokens
    | some m => if m > 100000 then maxTokens else m
  let available := max 1 (modelMax - ts.numSpecialToAdd)
  min maxTokens available

/-- Slicing loop `for i in range(0, len(tokens), size)` producing
`tokens[i:i+size]` windows, as in `_split_long_sentence`.  (`size = 0`,
which would raise in Python, never occurs: callers pass the result of
`_get_max_chunk_tokens`, which is at least `min(max_tokens, 1)` with
positive `max_tokens`.) -/
def sliceWindows (size : Nat) (l : List PyStr) : List (List PyStr) :=
  if h : l = [] ∨ size = 0 then []
  else l.take size :: sliceWindows size (l.drop size)
termination_by l.length
decreasing_by
  have hl : l ≠ [] := fun he => h (Or.inl he)
  cases l with
  | nil => exact absurd rfl hl
  | cons a as => simp [List.length_drop]; omega

/-- The `services._split_long_sentence(sentence_text, tokenizer, max_chunk_tokens)`:
encode the sentence, slice the token sequence into budget-sized windows,
decode each window, strip it, re-suffix a period when the decoded text does
not already end with one, and keep the non-empty results. -/
def splitLongSentence (sentenceText : PyStr) (maxChunkTokens : Nat) : List PyStr :=
  let chunkTokens := fallbackEncode sentenceText
  (sliceWindows maxChunkTokens chunkTokens).filterMap fun chunkIds =>
    let chunkText := pyStrip (fallbackDecode chunkIds)
    let chunkText :=
      if chunkText ≠ [] ∧ chunkText.getLast? ≠ some '.' then chunkText ++ ['.']
      else chunkText
    if chunkText ≠ [] then some chunkText else none

/-- Sentence units of `_chunk_text`:
`[s.strip() for s in text.split('.') if s.strip()]`. -/
def sentencesOf (text : PyStr) : List PyStr :=
  ((splitOnDot text).map pyStrip).filter (· ≠ [])

/-- Token count of one sentence as measured inside `_chunk_text`:
`len(tokenizer.encode(sentence_text, add_special_tokens=False))`. -/
def sentenceTokenCount (sentenceText : PyStr) : Nat :=
  (fallbackEncode sentenceText).length

/-- Greedy accumulation loop of `_chunk_text` over the sentence list, with
the running `current_sentences` / `current_token_count` state. -/
def chunkLoop (budget : Nat) :
    List PyStr → List PyStr → Nat → List PyStr
  | [], curr, _ =>
    if curr ≠ [] then [pyStrip (joinSpace curr)] else []
  | s :: rest, curr, currCount =>
    let sentenceText := s ++ ['.']
    let n := sentenceTokenCount sentenceText
    if budget < n then
      (if curr ≠ [] then [pyStrip (joinSpace curr)] else [])
        ++ splitLongSentence sentenceText budget
        ++ chunkLoop budget rest [] 0
    else if currCount + n ≤ budget then
      chunkLoop budget rest (curr ++ [sentenceText]) (currCount + n)
    else
      pyStrip (joinSpace curr) :: chunkLoop budget rest [sentenceText] n

/-- The `services._chunk_text(text, max_tokens)` under the fallback tokenizer
(the only tokenizer the repository itself constructs). -/
def chunkText (text : PyStr) (maxTokens : Nat) : List PyStr :=
  if text = [] then []
  else chunkLoop (getMaxChunkTokens fallbackTokSpec maxTokens) (sentencesOf text) [] 0

/-! ## Sentiment facades (`sentiment_service.py`, `groq_service.py`) -/

/-- The `raw` field of a sentiment result: `None` for the empty-input short
circuit, the raw response text when no JSON object was parsed, or the parsed
JSON object (its `sentiment` field's `str()` form retained). -/
inductive RawField where
  | null
  | text (s : PyStr)
  | obj (sentimentField : Option String)
deriving DecidableEq

/-- The sentiment result dict shared by `SentimentService.analyze` and
`GroqSentimentService.analyze`.  The float fields only ever hold the exact
values `-1.0`, `0.0`, `1.0` and are modelled as `Int`. -/
structure SentimentResult where
  sentiment : String
  polarity : Int
  subjectivity : Int
  model : String
  confidence : Int
  label : String
  score : Int
  raw : RawField
  tokenCount : Nat
  latencyMs : Nat
deriving DecidableEq

/-- The fixed result both services return for empty input. -/
def emptySentimentResult (modelName : String) : SentimentResult :=
  { sentiment := "Neutral", polarity := 0, subjectivity := 0, model := modelName
    confidence := 0, label := "NEUTRAL", score := 0, raw := .null
    tokenCount := 0, latencyMs := 0 }

/-- Keyword fallback shared by both services: look for `"negative"` then
`"positive"` as substrings of the lower-cased raw text, defaulting to the
initial `"neutral"`. -/
def keywordSentiment (rawText : PyStr) : PyStr :=
  let lower := pyLower rawText
  if containsSub lower ("negative".toList) then "negative".toList
  else if containsSub lower ("positive".toList) then "positive".toList
  else "neutral".toList

/-- Mapping of the resolved sentiment string to `(label, sentiment,
polarity)` as written in both services:
`negative → (NEGATIVE, Negative, -1.0)`, `positive → (POSITIVE, Positive,
1.0)`, anything else `→ (NEUTRAL, Neutral, 0.0)`. -/
def resolveTriple (sentimentRaw : PyStr) : String × String × Int :=
  if sentimentRaw = "negative".toList then ("NEGATIVE", "Negative", -1)
  else if sentimentRaw = "positive".toList then ("POSITIVE", "Positive", 1)
  else ("NEUTRAL", "Neutral", 0)

/-- The score line shared by both services:
`score = 1.0 if sentiment_raw != "neutral" else 0.0`. -/
def scoreOf (sentimentRaw : PyStr) : Int :=
  if sentimentRaw ≠ "neutral".toList then 1 else 0

/-- Backend observation for `SentimentService.analyze` (the local phi HTTP
service).  `rawText` is `choices[0]["text"].strip()` of the response body,
or `""` when the request failed or `choices` was empty.  `jsonLoads` is an
oracle for `json.loads` applied to the greedy regex match `\{.*\}` of
`rawText` (only consulted when such a match exists): `none` models
`JSONDecodeError`, `some f` models a decoded object whose
`str(obj.get("sentiment", "neutral"))` is `f.getD "neutral"`. -/
structure PhiBackend where
  rawText : PyStr
  jsonLoads : Option (Option String)

/-- Python `re.search(r"\{.*\}", raw_text, re.DOTALL)` succeeds exactly when
some `{` is followed (not necessarily immediately) by some `}`. -/
def hasBracePair (s : PyStr) : Bool :=
  match s.dropWhile (· ≠ lbrace) with
  | [] => false
  | _ :: rest => rest.contains rbrace

/-- Resolution of `sentiment_raw` in `SentimentService.analyze`: it starts
as `"neutral"`; when the brace regex matches, `json.loads` either succeeds
(take the lower-cased `sentiment` field) or raises `JSONDecodeError`,
which triggers the keyword fallback; when the regex does not match, no
exception is raised and the initial `"neutral"` survives. -/
def phiSentimentRaw (b : PhiBackend) : PyStr :=
  if hasBracePair b.rawText then
    match b.jsonLoads with
    | some f => pyLower ((f.getD "neutral").toList)
    | none => keywordSentiment b.rawText
  else "neutral".toList

/-- The `raw` field produced by `SentimentService.analyze`: initialized to
the raw text and replaced by the parsed object only when `json.loads`
succeeds. -/
def phiRawField (b : PhiBackend) : RawField :=
  if hasBracePair b.rawText then
    match b.jsonLoads with
    | some f => .obj f
    | none => .text b.rawText
  else .text b.rawText

/-- The `SentimentService.analyze(text)`.  `latencyMs` models the measured
wall-clock duration of the backend call; `token_count` is
`get_tokenizer_provider().count_tokens(text, model_name)`, which for the
provider's (always-fallback) tokenizers is the word count of the input. -/
def phiAnalyze (modelName : String) (text : PyStr) (b : PhiBackend)
    (latencyMs : Nat) : SentimentResult :=
  if text = [] then emptySentimentResult modelName
  else
    let sentimentRaw := phiSentimentRaw b
    let t := resolveTriple sentimentRaw
    let score := scoreOf sentimentRaw
    { sentiment := t.2.1, polarity := t.2.2, subjectivity := 1, model := modelName
      confidence := score, label := t.1, score := score, raw := phiRawField b
      tokenCount := (fallbackEncode text).length, latencyMs := latencyMs }

/-- Backend observation for `GroqSentimentService.analyze`.  `rawText` is
the stripped chat-completion content (`""` when `_chat_completion` raised).
`decodeOracle` models the `json.JSONDecoder.raw_decode` attempts of
`_extract_first_json`; it is only consulted when `rawText` contains a `{`
(otherwise `_extract_first_json` deterministically returns `None`). -/
structure GroqBackend where
  rawText : PyStr
  decodeOracle : Option (Option String)

/-- The `_extract_first_json(text)` outcome: `none` when no valid JSON object is
found, `some f` when an object is found, with `f` the
`str(parsed.get("sentiment", ...))` view as in `PhiBackend.jsonLoads`.
Scanning only attempts decodes at `{` characters, so a text without `{`
yields `none` regardless of the oracle. -/
def groqExtractJson (b : GroqBackend) : Option (Option String) :=
  if b.rawText.contains lbrace then b.decodeOracle else none

/-- Resolution of `sentiment_raw` in `GroqSentimentService.analyze`:
the decoded object's lower-cased `sentiment` field when
`_extract_first_json` found one, otherwise the keyword fallback. -/
def groqSentimentRaw (b : GroqBackend) : PyStr :=
  match groqExtractJson b with
  | some f => pyLower ((f.getD "neutral").toList)
  | none => keywordSentiment b.rawText

/-- The `raw` field produced by `GroqSentimentService.analyze`. -/
def groqRawField (b : GroqBackend) : RawField :=
  match groqExtractJson b with
  | some f => .obj f
  | none => .text b.rawText

/-- The `GroqSentimentService.analyze(text)`; `token_count` is hard-coded `0`
(Groq counts tokens server-side). -/
def groqAnalyze (modelName : String) (text : PyStr) (b : GroqBackend)
    (latencyMs : Nat) : SentimentResult :=
  if text = [] then emptySentimentResult modelName
  else
    let sentimentRaw := groqSentimentRaw b
    let t := resolveTriple sentimentRaw
    let score := scoreOf sentimentRaw
    { sentiment := t.2.1, polarity := t.2.2, subjectivity := 1, model := modelName
      confidence := score, label := t.1, score := score, raw := groqRawField b
      tokenCount := 0, latencyMs := latencyMs }

/-! ## Analysis & comparison normalizers (`analysis_service.py`, `groq_service.py`) -/

/-- A parsed JSON value as returned by `response.json()`. -/
inductive PyJson where
  | null
  | bool (b : Bool)
  | num (n : Int)
  | str (s : PyStr)
  | arr (xs : List PyJson)
  | obj (fields : List (String × PyJson))

/-- The Python exceptions that can arise inside the response-processing
`try` block of `analyze_rhetoric` / `compare_article_texts` in
`analysis_service.py`. -/
inductive PyExc where
  | requestExc
  | valueErr
  | keyErr
  | attrErr
  | typeErr
  | indexErr
deriving DecidableEq

/-- Python truthiness of a JSON value. -/
def pyTruthy : PyJson → Bool
  | .null => false
  | .bool b => b
  | .num n => n ≠ 0
  | .str s => s ≠ []
  | .arr xs => !xs.isEmpty
  | .obj fs => !fs.isEmpty

/-- Python `value.get(key, default)`: dict lookup with default, raising
`AttributeError` when the receiver is not a dict. -/
def pyDictGet (v : PyJson) (key : String) (dflt : PyJson) : Except PyExc PyJson :=
  match v with
  | .obj fs => .ok ((fs.lookup key).getD dflt)
  | _ => .error .attrErr

/-- Python `value[0]`: list indexing (IndexError when empty), string
indexing (a one-character string), `KeyError` for dicts, `TypeError` for
unsubscriptable values. -/
def pySubscriptZero : PyJson → Except PyExc PyJson
  | .arr (x :: _) => .ok x
  | .arr [] => .error .indexErr
  | .str (c :: _) => .ok (.str [c])
  | .str [] => .error .indexErr
  | .obj _ => .error .keyErr
  | _ => .error .typeErr

/-- Python `value.strip()`: `AttributeError` unless the receiver is a
string. -/
def pyStrCallStrip : PyJson → Except PyExc PyStr
  | .str s => .ok (pyStrip s)
  | _ => .error .attrErr

/-- Outcome of the local HTTP completion call made by `_call_completion`:
a transport failure (`requests.RequestException`, covering timeouts,
connection errors and `raise_for_status`), a body that is not JSON
(`response.json()` raising `ValueError`), or a parsed JSON body. -/
inductive HttpOutcome where
  | transport
  | notJson
  | ok (body : PyJson)

/-- Result dict built by `_build_response` plus the per-operation alias key
(`analysis` or `comparison`, stored in `payload`); `error = none` models
`None`. -/
structure AnalysisResult where
  model : String
  tokensUsed : PyJson
  error : Option PyStr
  text : PyStr
  payload : PyStr

/-- Shared response-processing `try`-body of the local `analyze_rhetoric`
and `compare_article_texts`: extract `choices[0]["text"].strip()` (empty
when `choices` is falsy) and `usage.get("total_tokens", 0) or 0`. -/
def localExtract (body : PyJson) : Except PyExc (PyStr × PyJson) := do
  let choicesRaw ← pyDictGet body "choices" .null
  let choices := if pyTruthy choicesRaw then choicesRaw else .arr []
  let outText ←
    if pyTruthy choices then do
      let c0 ← pySubscriptZero choices
      let t ← pyDictGet c0 "text" (.str [])
      pyStrCallStrip t
    else pure []
  let usage ← pyDictGet body "usage" (.obj [])
  let totalTokens ← pyDictGet usage "total_tokens" (.num 0)
  let tokensUsed := if pyTruthy totalTokens then totalTokens else .num 0
  pure (outText, tokensUsed)

/-- Exception handling of the local services: `requests.RequestException`
becomes a `"<model> request failed"` error, `ValueError` / `KeyError`
become `"<model> response invalid"`, and any other exception propagates to
the caller.  `failMsg` / `invalidMsg` are the two formatted error strings. -/
def localHandle (base : AnalysisResult) (failMsg invalidMsg : PyStr)
    (defaultText : PyStr) (e : Except PyExc (PyStr × PyJson)) :
    Except PyExc AnalysisResult :=
  match e with
  | .ok (outText, tokensUsed) =>
    let payload := if outText ≠ [] then outText else defaultText
    .ok { base with payload := payload, text := payload, tokensUsed := tokensUsed }
  | .error .requestExc => .ok { base with error := some failMsg }
  | .error .valueErr => .ok { base with error := some invalidMsg }
  | .error .keyErr => .ok { base with error := some invalidMsg }
  | .error e => .error e

/-- The `analysis_service.analyze_rhetoric(article_text)`, parameterized by the
backend outcome.  (The `_tokenize` call preceding the request swallows all
its own exceptions and does not influence the result dict.) -/
def analyzeRhetoricLocal (articleText : PyStr) (o : HttpOutcome) :
    Except PyExc AnalysisResult :=
  let d := "Rhetorical analysis unavailable for this story.".toList
  let base : AnalysisResult := ⟨"Qwen2-7B", .num 0, none, d, d⟩
  let trimmed := truncateText articleText 4000
  if trimmed = [] then .ok { base with error := some "No content provided.".toList }
  else
    match o with
    | .transport => .ok { base with error := some "Qwen request failed: <exc>".toList }
    | .notJson => .ok { base with error := some "Qwen response invalid: <exc>".toList }
    | .ok body =>
      localHandle base ("Qwen request failed: <exc>".toList)
        ("Qwen response invalid: <exc>".toList) d (localExtract body)

/-- The `analysis_service.compare_article_texts(primary_text, reference_text)`,
parameterized by the backend outcome. -/
def compareLocal (primaryText referenceText : PyStr) (o : HttpOutcome) :
    Except PyExc AnalysisResult :=
  let d := "Comparison unavailable for this pair of stories.".toList
  let base : AnalysisResult := ⟨"Mistral-7B", .num 0, none, d, d⟩
  let primary := truncateText primaryText 4000
  let reference := truncateText referenceText 4000
  if primary = [] ∨ reference = [] then
    .ok { base with error := some "One of the articles was empty.".toList }
  else
    match o with
    | .transport => .ok { base with error := some "Mistral request failed: <exc>".toList }
    | .notJson => .ok { base with error := some "Mistral response invalid: <exc>".toList }
    | .ok body =>
      localHandle base ("Mistral request failed: <exc>".toList)
        ("Mistral response invalid: <exc>".toList) d (localExtract body)

/-- Case-insensitive prefix test used for `<think>` tag scanning
(`re.IGNORECASE`). -/
def ciIsPrefixOf (pat s : PyStr) : Bool :=
  (pyLower pat).isPrefixOf (pyLower s)

/-- Position just past the first case-insensitive occurrence of `pat` in
`s`, if any. -/
def findPastSub (pat : PyStr) : PyStr → Option Nat
  | [] => if pat = [] then some 0 else none
  | c :: rest =>
    if ciIsPrefixOf pat (c :: rest) then some pat.length
    else (findPastSub pat rest).map (· + 1)

/-- Scanning loop of `re.sub(r"<think>[\s\S]*?</think>", "", text,
flags=re.IGNORECASE)`: at each position, a non-greedy match removes
everything from a `<think>` tag through the nearest following `</think>`;
positions without a full match are kept. -/
def stripThinkAux : PyStr → PyStr
  | [] => []
  | c :: rest =>
    if ciIsPrefixOf ("<think>".toList) (c :: rest) then
      match findPastSub ("</think>".toList) (rest.drop 6) with
      | some k => stripThinkAux ((rest.drop 6).drop k)
      | none => c :: stripThinkAux rest
    else c :: stripThinkAux rest
termination_by s => s.length
decreasing_by
  all_goals simp [List.length_drop]
  all_goals omega

/-- The `groq_service._strip_think(text)`: remove `<think>...</think>` blocks
and trim the remainder. -/
def stripThink (text : PyStr) : PyStr := pyStrip (stripThinkAux text)

/-- Outcome of `groq_service._chat_completion`: either some exception was
raised (transport error, SDK error, malformed SDK response — all are
`Exception`s), or a `(stripped text, total tokens)` pair was returned. -/
inductive GroqOutcome where
  | raise (msg : PyStr)
  | ok (text : PyStr) (tokens : Int)

/-- The `groq_service.analyze_rhetoric(article_text)`, parameterized by the
chat-completion outcome.  All exceptions are caught, so the function is
total. -/
def analyzeRhetoricGroq (articleText : PyStr) (o : GroqOutcome) : AnalysisResult :=
  let d := "Rhetorical analysis unavailable for this story.".toList
  let base : AnalysisResult := ⟨"llama-3.1-8b-instant", .num 0, none, d, d⟩
  let trimmed := truncateText articleText 4000
  if trimmed = [] then { base with error := some "No content provided.".toList }
  else
    match o with
    | .raise msg =>
      { base with error := some ("Groq rhetoric request failed: ".toList ++ msg) }
    | .ok t tokens =>
      let analysisText := stripThink t
      let payload := if analysisText ≠ [] then analysisText else d
      { base with payload := payload, text := payload, tokensUsed := .num tokens }

/-- The `groq_service.compare_article_texts(primary_text, reference_text)`,
parameterized by the chat-completion outcome. -/
def compareGroq (primaryText referenceText : PyStr) (o : GroqOutcome) : AnalysisResult :=
  let d := "Comparison unavailable for this pair of stories.".toList
  let base : AnalysisResult := ⟨"llama-3.3-70b-versatile", .num 0, none, d, d⟩
  let primary := truncateText primaryText 4000
  let reference := truncateText referenceText 4000
  if primary = [] ∨ reference = [] then
    { base with error := some "One of the articles was empty.".toList }
  else
    match o with
    | .raise msg =>
      { base with error := some ("Groq comparison request failed: ".toList ++ msg) }
    | .ok t tokens =>
      let comparisonText := stripThink t
      let payload := if comparisonText ≠ [] then comparisonText else d
      { base with payload := payload, text := payload, tokensUsed := .num tokens }

/-! ## Predicates and concrete inputs used by the claims -/

/-- Consistency of the `(sentiment, label, polarity)` triple with the §4.5
mapping table (rows only, ignoring the score column). -/
abbrev tripleConsistent (r : SentimentResult) : Prop :=
  (r.sentiment = "Negative" ∧ r.label = "NEGATIVE" ∧ r.polarity = -1)
  ∨ (r.sentiment = "Positive" ∧ r.label = "POSITIVE" ∧ r.polarity = 1)
  ∨ (r.sentiment = "Neutral" ∧ r.label = "NEUTRAL" ∧ r.polarity = 0)

/-- Full consistency with the §4.5 mapping table, score/confidence column
included: `negative ↦ (Negative, NEGATIVE, -1.0, 1.0)`,
`positive ↦ (Positive, POSITIVE, 1.0, 1.0)`,
`neutral ↦ (Neutral, NEUTRAL, 0.0, 0.0)`. -/
abbrev mappingConsistent (r : SentimentResult) : Prop :=
  r.confidence = r.score
  ∧ ((r.sentiment = "Negative" ∧ r.label = "NEGATIVE" ∧ r.polarity = -1 ∧ r.score = 1)
     ∨ (r.sentiment = "Positive" ∧ r.label = "POSITIVE" ∧ r.polarity = 1 ∧ r.score = 1)
     ∨ (r.sentiment = "Neutral" ∧ r.label = "NEUTRAL" ∧ r.polarity = 0 ∧ r.score = 0))

/-- Counterexample to C8 as stated: the normalized image of a non-integer
token need not be positive.  CPython's `hash("") == 0` (for every hash
seed), so a token whose `str()` form is empty normalizes to
`abs(0) % 10**6 = 0`, which is not a positive integer.  `zeroHash` models
the builtin `hash` at the single point consulted. -/
def zeroHash : PyStr → Int := fun _ => 0

/-- Raw backend text `{"sentiment": "mixed"}` used to refute C1 as stated:
the brace pair is found, `json.loads` succeeds, and the `sentiment` field is
`"mixed"`. -/
def mixedJsonRaw : PyStr := lbrace :: "\"sentiment\": \"mixed\"".toList ++ [rbrace]

/-- Backend text with no brace pair but a clear `negative` keyword, taken
from the repository's own Groq fallback test. -/
def plainNegativeRaw : PyStr := "The sentiment is clearly negative overall.".toList

/-- Predicate: a local analysis call that returned (rather than raised)
produced a result whose `text` is non-empty. -/
def localOkTextNonempty : Except PyExc AnalysisResult → Prop
  | .error _ => True
  | .ok r => r.text ≠ []

/-! ## Shared helper lemmas -/

/-- Dropping leading whitespace is the identity on strings without
whitespace. -/
theorem pyLstrip_no_space (s : PyStr) (h : ∀ c ∈ s, pyIsSpace c = false) :
    pyLstrip s = s := by
  cases s with
  | nil => rfl
  | cons c cs =>
    simp only [pyLstrip, List.dropWhile_cons, h c (List.mem_cons_self c cs)]
    simp

/-- Dropping trailing whitespace is the identity on strings without
whitespace. -/
theorem pyRstrip_no_space (s : PyStr) (h : ∀ c ∈ s, pyIsSpace c = false) :
    pyRstrip s = s := by
  have : s.reverse.dropWhile pyIsSpace = s.reverse := by
    cases hr : s.reverse with
    | nil => rfl
    | cons c cs =>
      have hc : c ∈ s := by
        rw [← List.mem_reverse, hr]; exact List.mem_cons_self c cs
      simp only [List.dropWhile_cons, h c hc]
      simp
  simp [pyRstrip, this]

/-- Stripping is the identity on strings without whitespace. -/
theorem pyStrip_no_space (s : PyStr) (h : ∀ c ∈ s, pyIsSpace c = false) :
    pyStrip s = s := by
  rw [pyStrip, pyLstrip_no_space s h, pyRstrip_no_space s h]

/-- Short branch of `_truncate_text`: within the limit, the stripped text is
returned verbatim. -/
theorem truncateText_of_le (text : PyStr) (limit : Nat)
    (h : (pyStrip text).length ≤ limit) : truncateText text limit = pyStrip text := by
  simp only [truncateText, if_pos h]

/-- Long branch of `_truncate_text`: past the limit, cut, right-strip and
append `" ..."`. -/
theorem truncateText_of_gt (text : PyStr) (limit : Nat)
    (h : limit < (pyStrip text).length) :
    truncateText text limit = pyRstrip ((pyStrip text).take limit) ++ " ...".toList := by
  have hn : ¬ (pyStrip text).length ≤ limit := Nat.not_le.mpr h
  simp only [truncateText, if_neg hn]

/-- A whitespace-only input truncates to the empty string. -/
theorem truncateText_of_strip_nil (text : PyStr) (limit : Nat)
    (h : pyStrip text = []) : truncateText text limit = [] := by
  rw [truncateText_of_le text limit (by rw [h]; exact Nat.zero_le _), h]

/-! ## C6: truncation policy -/

/-- C6: `_truncate_text` first trims surrounding whitespace; a trimmed text
within the limit (4000 at every call site) is returned verbatim, and a
longer one is cut at the limit, right-stripped, and suffixed with `" ..."`
(§4.3's shared truncation policy). -/
theorem truncate_text_policy (text : PyStr) (limit : Nat) :
    ((pyStrip text).length ≤ limit → truncateText text limit = pyStrip text)
    ∧ (limit < (pyStrip text).length →
        truncateText text limit = pyRstrip ((pyStrip text).take limit) ++ " ...".toList) :=
  ⟨truncateText_of_le text limit, truncateText_of_gt text limit⟩

/-- Witness for C6 at a 4001-character input with the 4000 limit used by
every call site. -/
theorem truncate_text_policy_witness :
    4000 < (pyStrip (List.replicate 4001 'a')).length
    ∧ truncateText (List.replicate 4001 'a') 4000
      = pyRstrip ((pyStrip (List.replicate 4001 'a')).take 4000) ++ " ...".toList := by
  have hs : pyStrip (List.replicate 4001 'a') = List.replicate 4001 'a' :=
    pyStrip_no_space _ (by
      intro c hc
      rw [List.eq_of_mem_replicate hc]; rfl)
  have hl : 4000 < (pyStrip (List.replicate 4001 'a')).length := by
    rw [hs, List.length_replicate]; omega
  exact ⟨hl, (truncate_text_policy (List.replicate 4001 'a') 4000).2 hl⟩

/-! ## C2: empty-input short circuit of the sentiment services -/

/-- C2: on empty input both sentiment services return the fixed
neutral/zero result — `Neutral`, polarity `0.0`, score `0.0`, label
`NEUTRAL`, `raw = None`, `token_count = 0`, `latency_ms = 0` — and the
result does not depend on the backend at all (no completion call is
consulted). -/
theorem empty_input_short_circuit (mp mg : String) (b : PhiBackend)
    (g : GroqBackend) (lat lat' : Nat) :
    phiAnalyze mp [] b lat = emptySentimentResult mp
    ∧ groqAnalyze mg [] g lat' = emptySentimentResult mg
    ∧ (emptySentimentResult mp).sentiment = "Neutral"
    ∧ (emptySentimentResult mp).polarity = 0
    ∧ (emptySentimentResult mp).score = 0
    ∧ (emptySentimentResult mp).label = "NEUTRAL"
    ∧ (emptySentimentResult mp).raw = RawField.null
    ∧ (emptySentimentResult mp).tokenCount = 0
    ∧ (emptySentimentResult mp).latencyMs = 0 :=
  ⟨rfl, rfl, rfl, rfl, rfl, rfl, rfl, rfl, rfl⟩

/-! ## C9: subjectivity of the LLM-backed classifiers -/

/-- Counterexample to C9 as stated: for the empty input, both LLM-backed
classifiers return `subjectivity = 0.0`, not the claimed constant `1.0`. -/
theorem subjectivity_empty_counterexample :
    (phiAnalyze "phi3.5:latest" [] ⟨[], none⟩ 0).subjectivity = 0
    ∧ (groqAnalyze "llama-3.1-8b-instant" [] ⟨[], none⟩ 0).subjectivity = 0
    ∧ ¬((phiAnalyze "phi3.5:latest" [] ⟨[], none⟩ 0).subjectivity = 1) := by
  exact ⟨rfl, rfl, by decide⟩

/-- C9 (amended): for every non-empty input both LLM-backed classifiers
return `subjectivity = 1.0`; the empty-input short circuit returns `0.0`
instead. -/
theorem subjectivity_amended (mp mg : String) (text : PyStr) (ht : text ≠ [])
    (b : PhiBackend) (g : GroqBackend) (lat lat' : Nat) :
    (phiAnalyze mp text b lat).subjectivity = 1
    ∧ (groqAnalyze mg text g lat').subjectivity = 1
    ∧ (phiAnalyze mp [] b lat).subjectivity = 0
    ∧ (groqAnalyze mg [] g lat').subjectivity = 0 := by
  refine ⟨?_, ?_, rfl, rfl⟩
  · simp only [phiAnalyze, if_neg ht]
  · simp only [groqAnalyze, if_neg ht]

/-- Witness for C9 (amended) at a concrete non-empty input. -/
theorem subjectivity_amended_witness :
    ("hello".toList ≠ ([] : PyStr))
    ∧ (phiAnalyze "phi3.5:latest" ("hello".toList) ⟨[], none⟩ 3).subjectivity = 1
    ∧ (groqAnalyze "llama-3.1-8b-instant" ("hello".toList) ⟨[], none⟩ 3).subjectivity = 1 :=
  ⟨by decide,
   (subjectivity_amended "phi3.5:latest" "llama-3.1-8b-instant" ("hello".toList)
      (by decide) ⟨[], none⟩ ⟨[], none⟩ 3 3).1,
   (subjectivity_amended "phi3.5:latest" "llama-3.1-8b-instant" ("hello".toList)
      (by decide) ⟨[], none⟩ ⟨[], none⟩ 3 3).2.1⟩

/-! ## C8: token-id normalization -/

/-- Characterization of the `_normalize_token_ids` loop: it extends the
accumulator by the element-wise normalized tokens, truncated to the room
left under `max_tokens`. -/
theorem normalizeTokenIdsGo_eq (h : PyStr → Int) (maxTokens : Int) :
    ∀ (toks : List PyTok) (acc : List Int),
      normalizeTokenIdsGo h maxTokens toks acc
        = acc ++ (toks.map (normalizeTok h)).take (maxTokens.toNat - acc.length) := by
  intro toks
  induction toks with
  | nil => intro acc; simp [normalizeTokenIdsGo]
  | cons t rest ih =>
    intro acc
    by_cases hge : (acc.length : Int) ≥ maxTokens
    · have h0 : maxTokens.toNat - acc.length = 0 := by omega
      simp [normalizeTokenIdsGo, hge, h0]
    · have hlt : (acc.length : Int) < maxTokens := by omega
      have h1 : maxTokens.toNat - acc.length = (maxTokens.toNat - (acc.length + 1)) + 1 := by
        omega
      rw [normalizeTokenIdsGo, if_neg hge, ih (acc ++ [normalizeTok h t])]
      simp [h1, List.take_succ_cons]

/-- Counterexample theorem for C8: a concrete non-integer token id is
normalized to `0`, and `0` is not positive. -/
theorem normalize_token_ids_counterexample :
    normalizeTokenIds zeroHash [PyTok.other []] 5 = [0]
    ∧ ¬(0 < (0 : Int)) := by decide

/-- C8 (amended): `_normalize_token_ids` truncates to the caller-supplied
maximum, preserves input order with integer ids passed through unchanged
(the result is exactly the element-wise image, truncated), and maps every
non-integer id to a bounded *non-negative* integer below `10 ** 6` via the
stable hash. -/
theorem normalize_token_ids_amended (h : PyStr → Int) (tokenIds : List PyTok)
    (maxTokens : Int) :
    normalizeTokenIds h tokenIds maxTokens
      = (tokenIds.map (normalizeTok h)).take maxTokens.toNat
    ∧ (normalizeTokenIds h tokenIds maxTokens).length ≤ maxTokens.toNat
    ∧ (∀ n : Int, normalizeTok h (.int n) = n)
    ∧ (∀ r : PyStr, 0 ≤ normalizeTok h (.other r) ∧ normalizeTok h (.other r) < 10 ^ 6) := by
  have he : normalizeTokenIds h tokenIds maxTokens
      = (tokenIds.map (normalizeTok h)).take maxTokens.toNat := by
    rw [normalizeTokenIds, normalizeTokenIdsGo_eq h maxTokens tokenIds []]
    simp
  refine ⟨he, ?_, fun n => rfl, fun r => ?_⟩
  · rw [he]
    exact le_trans (List.length_take_le _ _) (le_refl _)
  · constructor
    · exact Int.emod_nonneg _ (by norm_num)
    · exact Int.emod_lt_of_pos _ (by norm_num)

/-! ## C10: tokenizer provider caching -/

/-- Looking a key up in a cache extended on the right by that key yields the
old binding if present, the new one otherwise. -/
theorem lookup_append_singleton (l : List (String × Nat)) (m : String) (v : Nat) :
    (l ++ [(m, v)]).lookup m = some ((l.lookup m).getD v) := by
  induction l with
  | nil => simp [List.lookup]
  | cons p l ih =>
    obtain ⟨k, w⟩ := p
    by_cases hk : m = k
    · simp [List.lookup, hk]
    · have hk' : (m == k) = false := beq_eq_false_iff_ne.mpr hk
      simp [List.lookup, hk', ih]

/-- C10: `get_tokenizer` is idempotent — a first call for an uncached model
name performs exactly one construction and caches it, and a repeated call
returns the identical cached instance with the provider state unchanged;
`count_tokens` on non-empty text returns the length of the tokenizer's
`encode` output and changes the cache only through that same
`get_tokenizer` call. -/
theorem tokenizer_cache_idempotent (st : ProviderState) (m : String) :
    getTokenizer (getTokenizer st m).2 m = getTokenizer st m
    ∧ (st.cache.lookup m = none →
        (getTokenizer st m).1 = st.builds
        ∧ (getTokenizer st m).2.cache = st.cache ++ [(m, st.builds)]
        ∧ (getTokenizer st m).2.builds = st.builds + 1)
    ∧ (∀ t, st.cache.lookup m = some t → getTokenizer st m = (t, st))
    ∧ (∀ text : PyStr, text ≠ [] →
        countTokens st text m = ((fallbackEncode text).length, (getTokenizer st m).2)) := by
  refine ⟨?_, ?_, ?_, ?_⟩
  · cases hl : st.cache.lookup m with
    | some t => simp [getTokenizer, hl]
    | none =>
      have h2 : (st.cache ++ [(m, st.builds)]).lookup m = some st.builds := by
        rw [lookup_append_singleton, hl]; rfl
      simp [getTokenizer, hl, h2]
  · intro hl
    simp [getTokenizer, hl]
  · intro t hl
    simp [getTokenizer, hl]
  · intro text ht
    simp [countTokens, ht]

/-- Witness for C10 on the empty provider state and the repository's
`qwen2-7b` tokenizer name. -/
theorem tokenizer_cache_idempotent_witness :
    ((⟨[], 0⟩ : ProviderState).cache.lookup "qwen2-7b" = none)
    ∧ (getTokenizer ⟨[], 0⟩ "qwen2-7b").1 = 0
    ∧ (getTokenizer ⟨[], 0⟩ "qwen2-7b").2.cache = [("qwen2-7b", 0)]
    ∧ countTokens ⟨[], 0⟩ ("hello world".toList) "qwen2-7b"
        = ((fallbackEncode ("hello world".toList)).length, (getTokenizer ⟨[], 0⟩ "qwen2-7b").2) := by
  have h := tokenizer_cache_idempotent ⟨[], 0⟩ "qwen2-7b"
  refine ⟨rfl, (h.2.1 rfl).1, ?_, h.2.2.2 ("hello world".toList) (by decide)⟩
  have h2 := (h.2.1 rfl).2.1
  simpa using h2

/-! ## C1: sentiment mapping consistency -/

/-- Case analysis of the shared `(label, sentiment, polarity)` / `score`
computation over the resolved sentiment string. -/
theorem resolve_score_cases (sr : PyStr) :
    (resolveTriple sr = ("NEGATIVE", "Negative", -1) ∧ scoreOf sr = 1)
    ∨ (resolveTriple sr = ("POSITIVE", "Positive", 1) ∧ scoreOf sr = 1)
    ∨ (resolveTriple sr = ("NEUTRAL", "Neutral", 0) ∧ scoreOf sr = 0)
    ∨ (resolveTriple sr = ("NEUTRAL", "Neutral", 0) ∧ scoreOf sr = 1
       ∧ sr ≠ "negative".toList ∧ sr ≠ "positive".toList ∧ sr ≠ "neutral".toList) := by
  by_cases h1 : sr = "negative".toList
  · exact Or.inl ⟨by rw [h1]; decide, by rw [h1]; decide⟩
  by_cases h2 : sr = "positive".toList
  · exact Or.inr (Or.inl ⟨by rw [h2]; decide, by rw [h2]; decide⟩)
  by_cases h3 : sr = "neutral".toList
  · exact Or.inr (Or.inr (Or.inl ⟨by rw [h3]; decide, by rw [h3]; decide⟩))
  · refine Or.inr (Or.inr (Or.inr ⟨?_, ?_, h1, h2, h3⟩))
    · unfold resolveTriple
      rw [if_neg h1, if_neg h2]
    · unfold scoreOf
      rw [if_pos h3]

/-- Consistency of any sentiment result assembled the way both services
assemble theirs from a resolved sentiment string. -/
theorem assembled_consistency (sr : PyStr) (mname : String) (rawF : RawField)
    (tc lat : Nat) :
    (SentimentResult.mk (resolveTriple sr).2.1 (resolveTriple sr).2.2 1 mname
        (scoreOf sr) (resolveTriple sr).1 (scoreOf sr) rawF tc lat).confidence
      = (SentimentResult.mk (resolveTriple sr).2.1 (resolveTriple sr).2.2 1 mname
        (scoreOf sr) (resolveTriple sr).1 (scoreOf sr) rawF tc lat).score
    ∧ tripleConsistent (SentimentResult.mk (resolveTriple sr).2.1 (resolveTriple sr).2.2 1
        mname (scoreOf sr) (resolveTriple sr).1 (scoreOf sr) rawF tc lat)
    ∧ ((sr = "negative".toList ∨ sr = "positive".toList ∨ sr = "neutral".toList) →
        mappingConsistent (SentimentResult.mk (resolveTriple sr).2.1 (resolveTriple sr).2.2 1
          mname (scoreOf sr) (resolveTriple sr).1 (scoreOf sr) rawF tc lat)) := by
  refine ⟨rfl, ?_, ?_⟩
  · rcases resolve_score_cases sr with ⟨ht, _⟩ | ⟨ht, _⟩ | ⟨ht, _⟩ | ⟨ht, _, _⟩ <;>
      rw [ht] <;> simp [tripleConsistent]
  · intro hsr
    rcases resolve_score_cases sr with ⟨ht, hs⟩ | ⟨ht, hs⟩ | ⟨ht, hs⟩ | ⟨ht, hs, hn1, hn2, hn3⟩
    · rw [ht, hs]; simp [mappingConsistent]
    · rw [ht, hs]; simp [mappingConsistent]
    · rw [ht, hs]; simp [mappingConsistent]
    · rcases hsr with h | h | h
      · exact absurd h hn1
      · exact absurd h hn2
      · exact absurd h hn3

/-- Counterexample to C1 as stated: a backend response whose parsed JSON
`sentiment` is `"mixed"` resolves to the neutral row
`(Neutral, NEUTRAL, 0.0)` yet carries `score = confidence = 1.0` (the code
computes `score = 1.0 if sentiment_raw != "neutral"`), breaking the claimed
mutual consistency; both services share the line.  The oracle value
`some (some "mixed")` records that `json.loads('{"sentiment": "mixed"}')`
succeeds with `sentiment` field `"mixed"`. -/
theorem sentiment_mapping_counterexample :
    hasBracePair mixedJsonRaw = true
    ∧ (phiAnalyze "phi3.5:latest" ("Some article.".toList)
        ⟨mixedJsonRaw, some (some "mixed")⟩ 7).sentiment = "Neutral"
    ∧ (phiAnalyze "phi3.5:latest" ("Some article.".toList)
        ⟨mixedJsonRaw, some (some "mixed")⟩ 7).label = "NEUTRAL"
    ∧ (phiAnalyze "phi3.5:latest" ("Some article.".toList)
        ⟨mixedJsonRaw, some (some "mixed")⟩ 7).polarity = 0
    ∧ (phiAnalyze "phi3.5:latest" ("Some article.".toList)
        ⟨mixedJsonRaw, some (some "mixed")⟩ 7).score = 1
    ∧ ¬ mappingConsistent (phiAnalyze "phi3.5:latest" ("Some article.".toList)
        ⟨mixedJsonRaw, some (some "mixed")⟩ 7)
    ∧ ¬ mappingConsistent (groqAnalyze "llama-3.1-8b-instant" ("Some article.".toList)
        ⟨mixedJsonRaw, some (some "mixed")⟩ 7) := by decide

/-- C1 (amended): in both services `confidence` always equals `score`, the
`(sentiment, label, polarity)` triple always matches a row of the §4.5
table, and full row consistency (score column included) holds whenever the
resolved sentiment string is one of `negative` / `positive` / `neutral` —
which covers every keyword-fallback and empty-input path; a parsed JSON
`sentiment` outside those three values yields the neutral triple with
`score = confidence = 1.0`. -/
theorem sentiment_mapping_amended (mp mg : String) (text : PyStr) (b : PhiBackend)
    (g : GroqBackend) (lat lat' : Nat) :
    ((phiAnalyze mp text b lat).confidence = (phiAnalyze mp text b lat).score)
    ∧ tripleConsistent (phiAnalyze mp text b lat)
    ∧ ((phiSentimentRaw b = "negative".toList ∨ phiSentimentRaw b = "positive".toList
        ∨ phiSentimentRaw b = "neutral".toList) →
        mappingConsistent (phiAnalyze mp text b lat))
    ∧ ((groqAnalyze mg text g lat').confidence = (groqAnalyze mg text g lat').score)
    ∧ tripleConsistent (groqAnalyze mg text g lat')
    ∧ ((groqSentimentRaw g = "negative".toList ∨ groqSentimentRaw g = "positive".toList
        ∨ groqSentimentRaw g = "neutral".toList) →
        mappingConsistent (groqAnalyze mg text g lat')) := by
  by_cases ht : text = []
  · subst ht
    exact ⟨rfl, Or.inr (Or.inr ⟨rfl, rfl, rfl⟩), fun _ => ⟨rfl, Or.inr (Or.inr ⟨rfl, rfl, rfl, rfl⟩)⟩,
      rfl, Or.inr (Or.inr ⟨rfl, rfl, rfl⟩), fun _ => ⟨rfl, Or.inr (Or.inr ⟨rfl, rfl, rfl, rfl⟩)⟩⟩
  · have hp := assembled_consistency (phiSentimentRaw b) mp (phiRawField b)
      (fallbackEncode text).length lat
    have hg := assembled_consistency (groqSentimentRaw g) mg (groqRawField g) 0 lat'
    have hep : phiAnalyze mp text b lat
        = SentimentResult.mk (resolveTriple (phiSentimentRaw b)).2.1
            (resolveTriple (phiSentimentRaw b)).2.2 1 mp (scoreOf (phiSentimentRaw b))
            (resolveTriple (phiSentimentRaw b)).1 (scoreOf (phiSentimentRaw b))
            (phiRawField b) (fallbackEncode text).length lat := by
      simp only [phiAnalyze, if_neg ht]
    have heg : groqAnalyze mg text g lat'
        = SentimentResult.mk (resolveTriple (groqSentimentRaw g)).2.1
            (resolveTriple (groqSentimentRaw g)).2.2 1 mg (scoreOf (groqSentimentRaw g))
            (resolveTriple (groqSentimentRaw g)).1 (scoreOf (groqSentimentRaw g))
            (groqRawField g) 0 lat' := by
      simp only [groqAnalyze, if_neg ht]
    rw [hep, heg]
    exact ⟨hp.1, hp.2.1, hp.2.2, hg.1, hg.2.1, hg.2.2⟩

/-- Witness for C1 (amended): a concrete brace-free backend response
resolves to `neutral`, so the full-consistency hypothesis is discharged. -/
theorem sentiment_mapping_amended_witness :
    (phiSentimentRaw ⟨"ok".toList, none⟩ = "neutral".toList)
    ∧ mappingConsistent (phiAnalyze "phi3.5:latest" ("Fine day.".toList) ⟨"ok".toList, none⟩ 2)
    ∧ mappingConsistent (groqAnalyze "llama-3.1-8b-instant" ("Fine day.".toList)
        ⟨"ok".toList, none⟩ 2) :=
  ⟨by decide,
   (sentiment_mapping_amended "phi3.5:latest" "llama-3.1-8b-instant" ("Fine day.".toList)
      ⟨"ok".toList, none⟩ ⟨"ok".toList, none⟩ 2 2).2.2.1 (Or.inr (Or.inr (by decide))),
   (sentiment_mapping_amended "phi3.5:latest" "llama-3.1-8b-instant" ("Fine day.".toList)
      ⟨"ok".toList, none⟩ ⟨"ok".toList, none⟩ 2 2).2.2.2.2.2 (Or.inr (Or.inr (by decide)))⟩

/-! ## C3: keyword fallback when no JSON object is found -/

/-- C3: evaluation at the failing input.  The raw text contains no brace
pair (so no valid JSON object is found) and contains the keyword
`negative`; `GroqSentimentService.analyze` falls back to the keyword search
and returns the negative row as the claim states, but
`SentimentService.analyze` leaves the sentiment neutral — its keyword
fallback lives in an `except` clause that never runs when `re.search`
simply returns `None`. -/
theorem keyword_fallback_divergence :
    containsSub (pyLower plainNegativeRaw) ("negative".toList) = true
    ∧ hasBracePair plainNegativeRaw = false
    ∧ groqExtractJson ⟨plainNegativeRaw, none⟩ = none
    ∧ (groqAnalyze "llama-3.1-8b-instant" ("Some article.".toList)
        ⟨plainNegativeRaw, none⟩ 5).sentiment = "Negative"
    ∧ (groqAnalyze "llama-3.1-8b-instant" ("Some article.".toList)
        ⟨plainNegativeRaw, none⟩ 5).label = "NEGATIVE"
    ∧ (phiAnalyze "phi3.5:latest" ("Some article.".toList)
        ⟨plainNegativeRaw, none⟩ 5).sentiment = "Neutral"
    ∧ (phiAnalyze "phi3.5:latest" ("Some article.".toList)
        ⟨plainNegativeRaw, none⟩ 5).label = "NEUTRAL" := by decide

/-! ## C5: empty-input handling of analysis and comparison -/

/-- C5: a whitespace-only (hence empty after trimming) article makes both
`analyze_rhetoric` variants return `error = "No content provided."` with
`analysis` and `text` at the fixed unavailable-message, and an empty side
makes both `compare_article_texts` variants return the
`"One of the articles was empty."` error (which contains `"empty"`) with
`comparison` and `text` at the fixed default; in every case the result is a
constant independent of the backend outcome, so no backend call is made. -/
theorem empty_article_short_circuit (t u w : PyStr) (ht : pyStrip t = [])
    (hu : pyStrip u = []) (o : HttpOutcome) (og : GroqOutcome) :
    analyzeRhetoricLocal t o
      = .ok ⟨"Qwen2-7B", .num 0, some ("No content provided.".toList),
          "Rhetorical analysis unavailable for this story.".toList,
          "Rhetorical analysis unavailable for this story.".toList⟩
    ∧ analyzeRhetoricGroq t og
      = ⟨"llama-3.1-8b-instant", .num 0, some ("No content provided.".toList),
          "Rhetorical analysis unavailable for this story.".toList,
          "Rhetorical analysis unavailable for this story.".toList⟩
    ∧ compareLocal t w o
      = .ok ⟨"Mistral-7B", .num 0, some ("One of the articles was empty.".toList),
          "Comparison unavailable for this pair of stories.".toList,
          "Comparison unavailable for this pair of stories.".toList⟩
    ∧ compareLocal w u o
      = .ok ⟨"Mistral-7B", .num 0, some ("One of the articles was empty.".toList),
          "Comparison unavailable for this pair of stories.".toList,
          "Comparison unavailable for this pair of stories.".toList⟩
    ∧ compareGroq t w og
      = ⟨"llama-3.3-70b-versatile", .num 0, some ("One of the articles was empty.".toList),
          "Comparison unavailable for this pair of stories.".toList,
          "Comparison unavailable for this pair of stories.".toList⟩
    ∧ compareGroq w u og
      = ⟨"llama-3.3-70b-versatile", .num 0, some ("One of the articles was empty.".toList),
          "Comparison unavailable for this pair of stories.".toList,
          "Comparison unavailable for this pair of stories.".toList⟩
    ∧ containsSub ("One of the articles was empty.".toList) ("empty".toList) = true := by
  have h4t : truncateText t 4000 = [] := truncateText_of_strip_nil t 4000 ht
  have h4u : truncateText u 4000 = [] := truncateText_of_strip_nil u 4000 hu
  refine ⟨?_, ?_, ?_, ?_, ?_, ?_, by decide⟩
  · simp only [analyzeRhetoricLocal, h4t]
    rfl
  · simp only [analyzeRhetoricGroq, h4t]
    rfl
  · simp only [compareLocal, h4t]
    simp
  · simp only [compareLocal, h4u]
    simp
  · simp only [compareGroq, h4t]
    simp
  · simp only [compareGroq, h4u]
    simp

/-- Witness for C5 at concrete whitespace-only inputs. -/
theorem empty_article_short_circuit_witness :
    pyStrip ("  ".toList) = []
    ∧ analyzeRhetoricLocal ("  ".toList) .transport
      = .ok ⟨"Qwen2-7B", .num 0, some ("No content provided.".toList),
          "Rhetorical analysis unavailable for this story.".toList,
          "Rhetorical analysis unavailable for this story.".toList⟩ :=
  ⟨by decide,
   (empty_article_short_circuit ("  ".toList) ("  ".toList) ("Some article.".toList)
      (by decide) (by decide) .transport (.ok [] 0)).1⟩

/-! ## C4: result contract of analysis and comparison -/

/-- The shared exception-handling wrapper keeps `text` non-empty whenever
the incoming `text` and default are non-empty. -/
theorem localHandle_text (base : AnalysisResult) (failMsg invalidMsg dflt : PyStr)
    (e : Except PyExc (PyStr × PyJson)) (hb : base.text ≠ []) (hd : dflt ≠ []) :
    localOkTextNonempty (localHandle base failMsg invalidMsg dflt e) := by
  rcases e with e | ⟨outText, tokensUsed⟩
  · cases e <;> first | exact hb | trivial
  · by_cases hne : outText ≠ []
    · simp only [localHandle, localOkTextNonempty, if_pos hne]
      exact hne
    · simp only [localHandle, localOkTextNonempty, if_neg hne]
      exact hd

/-- The local `analyze_rhetoric` keeps `text` non-empty on every path on
which it returns. -/
theorem analyzeRhetoricLocal_text (t : PyStr) (o : HttpOutcome) :
    localOkTextNonempty (analyzeRhetoricLocal t o) := by
  have hd : ("Rhetorical analysis unavailable for this story.".toList : PyStr) ≠ [] := by decide
  by_cases htr : truncateText t 4000 = []
  · simp only [analyzeRhetoricLocal, if_pos htr]
    exact hd
  · simp only [analyzeRhetoricLocal, if_neg htr]
    cases o with
    | transport => exact hd
    | notJson => exact hd
    | ok body => exact localHandle_text _ _ _ _ _ hd hd

/-- The local `compare_article_texts` keeps `text` non-empty on every path
on which it returns. -/
theorem compareLocal_text (t u : PyStr) (o : HttpOutcome) :
    localOkTextNonempty (compareLocal t u o) := by
  have hd : ("Comparison unavailable for this pair of stories.".toList : PyStr) ≠ [] := by decide
  by_cases htr : truncateText t 4000 = [] ∨ truncateText u 4000 = []
  · simp only [compareLocal, if_pos htr]
    exact hd
  · simp only [compareLocal, if_neg htr]
    cases o with
    | transport => exact hd
    | notJson => exact hd
    | ok body => exact localHandle_text _ _ _ _ _ hd hd

/-- The Groq `analyze_rhetoric` is total and always returns non-empty,
aliased `text`. -/
theorem analyzeRhetoricGroq_text (t : PyStr) (o : GroqOutcome) :
    (analyzeRhetoricGroq t o).text ≠ []
    ∧ (analyzeRhetoricGroq t o).text = (analyzeRhetoricGroq t o).payload := by
  have hd : ("Rhetorical analysis unavailable for this story.".toList : PyStr) ≠ [] := by decide
  by_cases htr : truncateText t 4000 = []
  · simp only [analyzeRhetoricGroq, if_pos htr]
    exact ⟨hd, by trivial⟩
  · simp only [analyzeRhetoricGroq, if_neg htr]
    cases o with
    | raise msg => exact ⟨hd, by trivial⟩
    | ok txt tokens =>
      by_cases hne : stripThink txt ≠ []
      · simp only [if_pos hne]
        exact ⟨hne, by trivial⟩
      · simp only [if_neg hne]
        exact ⟨hd, by trivial⟩

/-- The Groq `compare_article_texts` is total and always returns non-empty,
aliased `text`. -/
theorem compareGroq_text (t u : PyStr) (o : GroqOutcome) :
    (compareGroq t u o).text ≠ []
    ∧ (compareGroq t u o).text = (compareGroq t u o).payload := by
  have hd : ("Comparison unavailable for this pair of stories.".toList : PyStr) ≠ [] := by decide
  by_cases htr : truncateText t 4000 = [] ∨ truncateText u 4000 = []
  · simp only [compareGroq, if_pos htr]
    exact ⟨hd, by trivial⟩
  · simp only [compareGroq, if_neg htr]
    cases o with
    | raise msg => exact ⟨hd, by trivial⟩
    | ok txt tokens =>
      by_cases hne : stripThink txt ≠ []
      · simp only [if_pos hne]
        exact ⟨hne, by trivial⟩
      · simp only [if_neg hne]
        exact ⟨hd, by trivial⟩

/-- C4: evaluation at the failing input, plus the pieces of the claim that
do hold.  The Groq variants never raise (they are total functions here
because the source catches every `Exception`) and always return a non-empty
`text` equal to its alias, and the local variants keep `text` non-empty on
every path on which they return — but a 2xx backend response whose JSON
body is an array (a malformed body) makes the local variants raise
`AttributeError` (`'list' object has no attribute 'get'`) past the
boundary instead of returning a result dict, because only
`requests.RequestException`, `ValueError` and `KeyError` are caught. -/
theorem analysis_text_contract :
    analyzeRhetoricLocal ("Some article.".toList) (.ok (.arr [])) = .error .attrErr
    ∧ compareLocal ("Some article.".toList) ("Another article.".toList) (.ok (.arr []))
        = .error .attrErr
    ∧ (∀ (t : PyStr) (o : HttpOutcome), localOkTextNonempty (analyzeRhetoricLocal t o))
    ∧ (∀ (t u : PyStr) (o : HttpOutcome), localOkTextNonempty (compareLocal t u o))
    ∧ (∀ (t : PyStr) (o : GroqOutcome), (analyzeRhetoricGroq t o).text ≠ []
        ∧ (analyzeRhetoricGroq t o).text = (analyzeRhetoricGroq t o).payload)
    ∧ (∀ (t u : PyStr) (o : GroqOutcome), (compareGroq t u o).text ≠ []
        ∧ (compareGroq t u o).text = (compareGroq t u o).payload) :=
  ⟨rfl, rfl, analyzeRhetoricLocal_text, compareLocal_text,
   analyzeRhetoricGroq_text, compareGroq_text⟩

/-! ## Word-splitting lemma library (for C7) -/

/-- The `pyWords` of the empty string (the definition is by well-founded
recursion, so this unfolding is a lemma). -/
theorem pyWords_nil : pyWords [] = [] := by rw [pyWords]

/-- Unfolding `pyWords` at a whitespace head. -/
theorem pyWords_cons_space {c : Char} (hc : pyIsSpace c = true) (cs : PyStr) :
    pyWords (c :: cs) = pyWords cs := by
  rw [pyWords, if_pos hc]

/-- Unfolding `pyWords` at a non-whitespace head. -/
theorem pyWords_cons_word {c : Char} (hc : pyIsSpace c = false) (cs : PyStr) :
    pyWords (c :: cs)
      = (c :: cs.takeWhile pyNotSpace) :: pyWords (cs.dropWhile pyNotSpace) := by
  rw [pyWords, if_neg (by simp [hc])]

/-- The `takeWhile` ignores everything from a failing element on, across an
append. -/
theorem takeWhile_append_of_neg {p : Char → Bool} {c : Char} (hc : p c = false)
    (u v : PyStr) : (u ++ c :: v).takeWhile p = u.takeWhile p := by
  induction u with
  | nil => simp [List.takeWhile_cons, hc]
  | cons a u ih =>
    by_cases ha : p a
    · simp [List.takeWhile_cons, ha, ih]
    · simp [List.takeWhile_cons, ha]

/-- The `dropWhile` keeps everything from a failing element on, across an
append. -/
theorem dropWhile_append_of_neg {p : Char → Bool} {c : Char} (hc : p c = false)
    (u v : PyStr) : (u ++ c :: v).dropWhile p = u.dropWhile p ++ c :: v := by
  induction u with
  | nil => simp [List.dropWhile_cons, hc]
  | cons a u ih =>
    by_cases ha : p a
    · simp [List.dropWhile_cons, ha, ih]
    · simp [List.dropWhile_cons, ha]

/-- Splitting across an interior whitespace character. -/
theorem pyWords_append_space {c : Char} (hc : pyIsSpace c = true) :
    ∀ (a b : PyStr), pyWords (a ++ c :: b) = pyWords a ++ pyWords b := by
  intro a
  induction a using pyWords.induct with
  | case1 =>
    intro b
    simp [pyWords_cons_space hc, pyWords_nil]
  | case2 x xs hx ih =>
    intro b
    rw [List.cons_append, pyWords_cons_space hx, pyWords_cons_space hx, ih b]
  | case3 x xs hx ih =>
    intro b
    have hx' : pyIsSpace x = false := by
      simpa [pyNotSpace] using hx
    have hcn : pyNotSpace c = false := by simp [pyNotSpace, hc]
    rw [List.cons_append, pyWords_cons_word hx', pyWords_cons_word hx',
      takeWhile_append_of_neg hcn, dropWhile_append_of_neg hcn, ih b]
    simp

/-- Whitespace-only strings have no words. -/
theorem pyWords_all_space {t : PyStr} (h : ∀ ch ∈ t, pyIsSpace ch = true) :
    pyWords t = [] := by
  induction t with
  | nil => exact pyWords_nil
  | cons c cs ih =>
    rw [pyWords_cons_space (h c (List.mem_cons_self c cs))]
    exact ih fun ch hch => h ch (List.mem_cons_of_mem c hch)

/-- A whitespace-only suffix contributes no words. -/
theorem pyWords_append_spaces {t : PyStr} (h : ∀ ch ∈ t, pyIsSpace ch = true)
    (u : PyStr) : pyWords (u ++ t) = pyWords u := by
  cases t with
  | nil => simp
  | cons c cs =>
    rw [pyWords_append_space (h c (List.mem_cons_self c cs)) u cs,
      pyWords_all_space fun ch hch => h ch (List.mem_cons_of_mem c hch)]
    simp

/-- A whitespace-only prefix contributes no words. -/
theorem pyWords_prepend_spaces {t : PyStr} (h : ∀ ch ∈ t, pyIsSpace ch = true)
    (u : PyStr) : pyWords (t ++ u) = pyWords u := by
  induction t with
  | nil => simp
  | cons c cs ih =>
    rw [List.cons_append, pyWords_cons_space (h c (List.mem_cons_self c cs))]
    exact ih fun ch hch => h ch (List.mem_cons_of_mem c hch)

/-- The `takeWhile` and `dropWhile` on an all-satisfying string. -/
theorem takeWhile_all {p : Char → Bool} {t : PyStr} (h : ∀ ch ∈ t, p ch = true) :
    t.takeWhile p = t ∧ t.dropWhile p = [] := by
  induction t with
  | nil => exact ⟨rfl, rfl⟩
  | cons c cs ih =>
    have hc := h c (List.mem_cons_self c cs)
    have ih' := ih fun ch hch => h ch (List.mem_cons_of_mem c hch)
    simp [List.takeWhile_cons, List.dropWhile_cons, hc, ih'.1, ih'.2]

/-- A non-empty all-non-whitespace string is its own single word. -/
theorem pyWords_single {w : PyStr} (hw : w ≠ [])
    (h : ∀ ch ∈ w, pyIsSpace ch = false) : pyWords w = [w] := by
  cases w with
  | nil => exact absurd rfl hw
  | cons c cs =>
    have hall : ∀ ch ∈ cs, pyNotSpace ch = true := by
      intro ch hch
      simp [pyNotSpace, h ch (List.mem_cons_of_mem c hch)]
    rw [pyWords_cons_word (h c (List.mem_cons_self c cs)),
      (takeWhile_all hall).1, (takeWhile_all hall).2, pyWords_nil]

/-- Every word of a string is non-empty and whitespace-free. -/
theorem pyWords_members (s : PyStr) :
    ∀ w ∈ pyWords s, w ≠ [] ∧ ∀ ch ∈ w, pyIsSpace ch = false := by
  induction s using pyWords.induct with
  | case1 => simp [pyWords]
  | case2 c cs hc ih =>
    rw [pyWords_cons_space hc]
    exact ih
  | case3 c cs hc ih =>
    have hc' : pyIsSpace c = false := by simpa [pyNotSpace] using hc
    rw [pyWords_cons_word hc']
    intro w hw
    rcases List.mem_cons.mp hw with hw | hw
    · subst hw
      refine ⟨by simp, ?_⟩
      intro ch hch
      rcases List.mem_cons.mp hch with hch | hch
      · subst hch; exact hc'
      · have := List.mem_takeWhile_imp hch
        simpa [pyNotSpace] using this
    · exact ih w hw

/-- Words of a space-joined list are the concatenation of the words of the
pieces. -/
theorem pyWords_join (L : List PyStr) :
    pyWords (joinSpace L) = L.flatMap pyWords := by
  induction L with
  | nil => simp [joinSpace, pyWords_nil]
  | cons s rest ih =>
    cases rest with
    | nil => simp [joinSpace]
    | cons y t =>
      have hj : joinSpace (s :: y :: t) = s ++ ' ' :: joinSpace (y :: t) := rfl
      rw [hj, pyWords_append_space (by decide) s (joinSpace (y :: t)), ih]
      simp

/-! ## Strip and content lemmas (for C7) -/

/-- Left-stripping does not change the words. -/
theorem pyWords_lstrip (s : PyStr) : pyWords (pyLstrip s) = pyWords s := by
  induction s with
  | nil => rfl
  | cons c cs ih =>
    by_cases hc : pyIsSpace c
    · rw [pyLstrip, List.dropWhile_cons, if_pos hc, pyWords_cons_space hc]
      exact ih
    · rw [pyLstrip, List.dropWhile_cons, if_neg hc]

/-- Decomposition of a string as its right-strip followed by whitespace. -/
theorem pyRstrip_decomp (s : PyStr) :
    ∃ sfx, s = pyRstrip s ++ sfx ∧ ∀ ch ∈ sfx, pyIsSpace ch = true := by
  refine ⟨(s.reverse.takeWhile pyIsSpace).reverse, ?_, ?_⟩
  · conv_lhs => rw [← s.reverse_reverse, ← List.takeWhile_append_dropWhile (p := pyIsSpace) (l := s.reverse)]
    rw [List.reverse_append, pyRstrip]
  · intro ch hch
    rw [List.mem_reverse] at hch
    exact List.mem_takeWhile_imp hch

/-- Right-stripping does not change the words. -/
theorem pyWords_rstrip (s : PyStr) : pyWords (pyRstrip s) = pyWords s := by
  obtain ⟨sfx, hs, hsp⟩ := pyRstrip_decomp s
  conv_rhs => rw [hs]
  rw [pyWords_append_spaces hsp]

/-- Stripping does not change the words. -/
theorem pyWords_strip (s : PyStr) : pyWords (pyStrip s) = pyWords s := by
  rw [pyStrip, pyWords_rstrip, pyWords_lstrip]

/-- The first element surviving a `dropWhile` fails the predicate. -/
theorem dropWhile_head_not {p : Char → Bool} {l : PyStr} {d : Char} {v : PyStr}
    (h : l.dropWhile p = d :: v) : p d = false := by
  induction l with
  | nil => simp at h
  | cons a as ih =>
    rw [List.dropWhile_cons] at h
    by_cases ha : p a
    · rw [if_pos ha] at h
      exact ih h
    · rw [if_neg ha] at h
      injection h with h1 h2
      subst h1
      simpa using ha

/-- A non-empty right-strip ends in a non-whitespace character. -/
theorem pyRstrip_getLast (s : PyStr) (h : pyRstrip s ≠ []) :
    ∃ d, (pyRstrip s).getLast? = some d ∧ pyIsSpace d = false := by
  rw [pyRstrip] at h ⊢
  cases hd : s.reverse.dropWhile pyIsSpace with
  | nil => rw [hd] at h; simp at h
  | cons d v =>
    refine ⟨d, ?_, dropWhile_head_not hd⟩
    rw [List.getLast?_reverse]
    rfl

/-- A non-empty strip ends in a non-whitespace character. -/
theorem pyStrip_getLast (s : PyStr) (h : pyStrip s ≠ []) :
    ∃ d, (pyStrip s).getLast? = some d ∧ pyIsSpace d = false :=
  pyRstrip_getLast (pyLstrip s) h

/-- Characters surviving a strip come from the original string. -/
theorem mem_pyStrip {a : Char} {s : PyStr} (h : a ∈ pyStrip s) : a ∈ s := by
  rw [pyStrip, pyRstrip] at h
  rw [List.mem_reverse] at h
  have h2 := List.dropWhile_sublist (l := (pyLstrip s).reverse) pyIsSpace |>.mem h
  rw [List.mem_reverse] at h2
  exact (List.dropWhile_sublist (l := s) pyIsSpace).mem h2

/-- The `dropDots` distributes over append. -/
theorem dropDots_append (a b : PyStr) : dropDots (a ++ b) = dropDots a ++ dropDots b := by
  simp [dropDots]

/-- Removing dots erases a trailing period. -/
theorem dropDots_dot (s : PyStr) : dropDots (s ++ ['.']) = dropDots s := by
  rw [dropDots_append]
  simp [dropDots]

/-- Whitespace is preserved by `dropDots`. -/
theorem dropDots_all_space {t : PyStr} (h : ∀ ch ∈ t, pyIsSpace ch = true) :
    dropDots t = t := by
  rw [dropDots, List.filter_eq_self]
  intro ch hch
  have hsp := h ch hch
  have : ch ≠ '.' := by
    intro he
    subst he
    exact absurd hsp (by decide)
  simp [this]

/-- Content is invariant under left strip. -/
theorem contentOf_lstrip (s : PyStr) : contentOf (pyLstrip s) = contentOf s := by
  have hdec : s = s.takeWhile pyIsSpace ++ pyLstrip s :=
    (List.takeWhile_append_dropWhile ..).symm
  have hsp : ∀ ch ∈ s.takeWhile pyIsSpace, pyIsSpace ch = true :=
    fun ch hch => List.mem_takeWhile_imp hch
  conv_rhs => rw [contentOf, hdec]
  rw [dropDots_append, dropDots_all_space hsp, pyWords_prepend_spaces hsp]
  rfl

/-- Content is invariant under right strip. -/
theorem contentOf_rstrip (s : PyStr) : contentOf (pyRstrip s) = contentOf s := by
  obtain ⟨sfx, hs, hsp⟩ := pyRstrip_decomp s
  conv_rhs => rw [contentOf, hs]
  rw [dropDots_append, dropDots_all_space hsp, pyWords_append_spaces hsp]
  rfl

/-- Content is invariant under strip. -/
theorem contentOf_strip (s : PyStr) : contentOf (pyStrip s) = contentOf s := by
  rw [pyStrip, contentOf_rstrip, contentOf_lstrip]

/-- Content of a space-joined list is the concatenation of the pieces'
content. -/
theorem contentOf_join (L : List PyStr) :
    contentOf (joinSpace L) = L.flatMap contentOf := by
  induction L with
  | nil => simp [contentOf, dropDots, pyWords_nil, joinSpace]
  | cons s rest ih =>
    cases rest with
    | nil => simp [joinSpace]
    | cons y t =>
      have hj : joinSpace (s :: y :: t) = s ++ ' ' :: joinSpace (y :: t) := rfl
      have hded : dropDots (s ++ ' ' :: joinSpace (y :: t))
          = dropDots s ++ ' ' :: dropDots (joinSpace (y :: t)) := by
        rw [dropDots_append]
        simp [dropDots]
      rw [contentOf, hj, hded, pyWords_append_space (by decide), ← contentOf, ← contentOf, ih]
      simp

/-- Concatenating the content of each word of a string recovers the content
of the string. -/
theorem contentOf_flatten_words (x : PyStr) :
    (pyWords x).flatMap contentOf = contentOf x := by
  induction x using pyWords.induct with
  | case1 => simp [pyWords_nil, contentOf, dropDots]
  | case2 c cs hc ih =>
    have hcd : c ≠ '.' := by
      intro he; subst he; exact absurd hc (by decide)
    have hrhs : contentOf (c :: cs) = contentOf cs := by
      show pyWords (dropDots (c :: cs)) = _
      rw [show dropDots (c :: cs) = c :: dropDots cs by simp [dropDots, hcd],
        pyWords_cons_space hc]
      rfl
    rw [pyWords_cons_space hc, ih, hrhs]
  | case3 c cs hc ih =>
    have hc' : pyIsSpace c = false := by simpa [pyNotSpace] using hc
    rw [pyWords_cons_word hc']
    cases hdw : cs.dropWhile pyNotSpace with
    | nil =>
      rw [pyWords_nil]
      have hsplit : c :: cs = (c :: cs.takeWhile pyNotSpace) ++ [] := by
        conv_lhs => rw [← List.takeWhile_append_dropWhile (p := pyNotSpace) (l := cs), hdw]
        simp
      conv_rhs => rw [hsplit]
      simp
    | cons d v =>
      have hd : pyIsSpace d = true := by
        have := dropWhile_head_not hdw
        simpa [pyNotSpace] using this
      have hdd : d ≠ '.' := by
        intro he; subst he; exact absurd hd (by decide)
      rw [hdw] at ih
      have hsplit : c :: cs = (c :: cs.takeWhile pyNotSpace) ++ d :: v := by
        conv_lhs => rw [← List.takeWhile_append_dropWhile (p := pyNotSpace) (l := cs), hdw]
        simp
      have hcv : contentOf (d :: v) = pyWords (dropDots v) := by
        show pyWords (dropDots (d :: v)) = _
        rw [show dropDots (d :: v) = d :: dropDots v by simp [dropDots, hdd],
          pyWords_cons_space hd]
      have hrhs : contentOf (c :: cs)
          = contentOf (c :: cs.takeWhile pyNotSpace) ++ contentOf (d :: v) := by
        rw [hsplit]
        show pyWords (dropDots ((c :: cs.takeWhile pyNotSpace) ++ d :: v)) = _
        rw [dropDots_append, show dropDots (d :: v) = d :: dropDots v by simp [dropDots, hdd],
          pyWords_append_space hd, hcv]
        rfl
      rw [hrhs, List.flatMap_cons, ih]

/-! ## Window and long-sentence lemmas (for C7) -/

/-- Flattening the slicing windows recovers the token list. -/
theorem sliceWindows_flatten {B : Nat} (hB : B ≠ 0) :
    ∀ l : List PyStr, (sliceWindows B l).flatten = l := by
  intro l
  induction l using sliceWindows.induct B with
  | case1 l h =>
    rcases h with h | h
    · subst h; rw [sliceWindows]; simp
    · exact absurd h hB
  | case2 l h ih =>
    rw [sliceWindows, dif_neg h]
    simp [ih, List.take_append_drop]

/-- Every slicing window is non-empty and within the budget. -/
theorem sliceWindows_mem {B : Nat} (hB : B ≠ 0) :
    ∀ l : List PyStr, ∀ g ∈ sliceWindows B l, g.length ≤ B ∧ g ≠ [] := by
  intro l
  induction l using sliceWindows.induct B with
  | case1 l h =>
    rcases h with h | h
    · subst h; rw [sliceWindows]; simp
    · exact absurd h hB
  | case2 l h ih =>
    rw [sliceWindows, dif_neg h]
    intro g hg
    rcases List.mem_cons.mp hg with hg | hg
    · subst hg
      refine ⟨List.length_take_le B l, ?_⟩
      intro he
      rcases List.take_eq_nil_iff.mp he with he | he
      · exact hB he
      · exact h (Or.inl he)
    · exact ih g hg

/-- Every slicing window's elements come from the sliced list. -/
theorem sliceWindows_mem_mem {B : Nat} :
    ∀ l : List PyStr, ∀ g ∈ sliceWindows B l, ∀ w ∈ g, w ∈ l := by
  intro l
  induction l using sliceWindows.induct B with
  | case1 l h =>
    rw [sliceWindows, dif_pos h]
    simp
  | case2 l h ih =>
    rw [sliceWindows, dif_neg h]
    intro g hg w hw
    rcases List.mem_cons.mp hg with hg | hg
    · subst hg
      exact List.mem_of_mem_take hw
    · exact List.mem_of_mem_drop (ih g hg w hw)

/-- A token list longer than the budget produces at least two windows. -/
theorem sliceWindows_two {B : Nat} (hB : B ≠ 0) (l : List PyStr)
    (h : B < l.length) : 2 ≤ (sliceWindows B l).length := by
  have hl : l ≠ [] := by
    intro he; subst he; simp at h
  rw [sliceWindows, dif_neg (by simp [hl, hB])]
  have hd : l.drop B ≠ [] := by
    intro he
    have := congrArg List.length he
    rw [List.length_drop] at this
    simp at this
    omega
  rw [sliceWindows, dif_neg (by simp [hd, hB])]
  simp

/-- Appending one non-whitespace character to a string that ends in a
non-whitespace character does not change its word count. -/
theorem pyWords_append_char_length {c : Char} (hc : pyIsSpace c = false) :
    ∀ s : PyStr, (∃ d, s.getLast? = some d ∧ pyIsSpace d = false) →
      (pyWords (s ++ [c])).length = (pyWords s).length := by
  intro s
  induction s using pyWords.induct with
  | case1 =>
    rintro ⟨d, hd, -⟩
    simp at hd
  | case2 x xs hx ih =>
    rintro ⟨d, hlast, hd⟩
    cases xs with
    | nil =>
      simp at hlast
      subst hlast
      rw [hx] at hd
      exact absurd hd (by simp)
    | cons y ys =>
      rw [List.cons_append, pyWords_cons_space hx, pyWords_cons_space hx]
      exact ih ⟨d, by rw [← List.getLast?_cons_cons (a := x)]; exact hlast, hd⟩
  | case3 x xs hx ih =>
    rintro ⟨d, hlast, hd⟩
    have hx' : pyIsSpace x = false := by simpa [pyNotSpace] using hx
    rw [List.cons_append, pyWords_cons_word hx', pyWords_cons_word hx']
    cases hdw : xs.dropWhile pyNotSpace with
    | nil =>
      have hall : ∀ ch ∈ xs, pyNotSpace ch = true := List.dropWhile_eq_nil_iff.mp hdw
      have hallc : ∀ ch ∈ xs ++ [c], pyNotSpace ch = true := by
        intro ch hch
        rcases List.mem_append.mp hch with hch | hch
        · exact hall ch hch
        · simp at hch
          subst hch
          simp [pyNotSpace, hc]
      rw [(takeWhile_all hallc).2]
      simp
    | cons e w =>
      have he : pyIsSpace e = true := by
        have := dropWhile_head_not hdw
        simpa [pyNotSpace] using this
      have hen : pyNotSpace e = false := by simp [pyNotSpace, he]
      have hxs : xs = xs.takeWhile pyNotSpace ++ e :: w := by
        conv_lhs => rw [← List.takeWhile_append_dropWhile (p := pyNotSpace) (l := xs), hdw]
      have hdwc : (xs ++ [c]).dropWhile pyNotSpace = e :: (w ++ [c]) := by
        conv_lhs => rw [hxs]
        rw [List.append_assoc, List.cons_append,
          dropWhile_append_of_neg hen (xs.takeWhile pyNotSpace) (w ++ [c])]
        rw [(takeWhile_all (fun ch hch => List.mem_takeWhile_imp hch)).2]
        rfl
      rw [hdwc, pyWords_cons_space he, pyWords_cons_space he]
      simp only [List.length_cons]
      have hxs_ne : xs ≠ [] := by
        intro he'
        rw [he'] at hdw
        simp at hdw
      have hlast' : (e :: w).getLast? = some d := by
        have h1 : (x :: xs).getLast? = xs.getLast? := by
          cases xs with
          | nil => exact absurd rfl hxs_ne
          | cons a as => exact List.getLast?_cons_cons
        have h2 : xs.getLast? = (e :: w).getLast? := by
          conv_lhs => rw [hxs]
          exact List.getLast?_append_of_ne_nil _ (by simp)
        rw [← h2, ← h1]
        exact hlast
      have hih := ih ⟨d, by rw [hdw]; exact hlast', hd⟩
      rw [hdw, List.cons_append, pyWords_cons_space he, pyWords_cons_space he] at hih
      omega

/-- Content survives a trailing period. -/
theorem contentOf_dot (s : PyStr) : contentOf (s ++ ['.']) = contentOf s := by
  rw [contentOf, dropDots_dot]
  rfl

/-- A list of singleton-word strings flat-maps to itself under `pyWords`. -/
theorem flatMap_words_self {g : List PyStr} (h : ∀ w ∈ g, pyWords w = [w]) :
    g.flatMap pyWords = g := by
  induction g with
  | nil => rfl
  | cons w g ih =>
    rw [List.flatMap_cons, h w (List.mem_cons_self w g),
      ih fun v hv => h v (List.mem_cons_of_mem w hv)]
    rfl

/-- The decoded, stripped text of a window of words has exactly those words
and is non-empty. -/
theorem window_words {g : List PyStr} (hg : g ≠ [])
    (hmem : ∀ w ∈ g, w ≠ [] ∧ ∀ ch ∈ w, pyIsSpace ch = false) :
    pyWords (pyStrip (joinSpace g)) = g ∧ pyStrip (joinSpace g) ≠ [] := by
  have hw : pyWords (pyStrip (joinSpace g)) = g := by
    rw [pyWords_strip, pyWords_join]
    exact flatMap_words_self fun w hw => pyWords_single (hmem w hw).1 (hmem w hw).2
  refine ⟨hw, ?_⟩
  intro he
  rw [he, pyWords_nil] at hw
  exact hg hw.symm

/-- The `_split_long_sentence` keeps every window: the filter never drops one. -/
theorem splitLongSentence_eq {B : Nat} (hB : B ≠ 0) (st : PyStr) :
    splitLongSentence st B = (sliceWindows B (pyWords st)).map (fun g =>
      let ct := pyStrip (joinSpace g)
      if ct ≠ [] ∧ ct.getLast? ≠ some '.' then ct ++ ['.'] else ct) := by
  have hcongr : ∀ g ∈ sliceWindows B (pyWords st),
      (let ct := pyStrip (joinSpace g)
       let ct2 := if ct ≠ [] ∧ ct.getLast? ≠ some '.' then ct ++ ['.'] else ct
       if ct2 ≠ [] then some ct2 else none)
      = some (let ct := pyStrip (joinSpace g)
              if ct ≠ [] ∧ ct.getLast? ≠ some '.' then ct ++ ['.'] else ct) := by
    intro g hg
    have hgne : g ≠ [] := ((sliceWindows_mem hB (pyWords st)) g hg).2
    have hmem : ∀ w ∈ g, w ≠ [] ∧ ∀ ch ∈ w, pyIsSpace ch = false :=
      fun w hw => pyWords_members st w (sliceWindows_mem_mem (pyWords st) g hg w hw)
    obtain ⟨-, hne⟩ := window_words hgne hmem
    by_cases hdot : (pyStrip (joinSpace g)).getLast? = some '.'
    · simp [hne, hdot]
    · simp [hne, hdot]
  exact (List.filterMap_congr hcongr).trans (congrFun (List.filterMap_eq_map _) _)

/-- Flat-mapping over a flattened list of lists. -/
theorem flatMap_flatten {α : Type} (f : PyStr → List α) (L : List (List PyStr)) :
    L.flatten.flatMap f = L.flatMap (fun l => l.flatMap f) := by
  induction L with
  | nil => rfl
  | cons l L ih =>
    rw [List.flatten_cons, List.flatMap_append, List.flatMap_cons, ih]

/-- The sub-chunks of `_split_long_sentence` carry exactly the sentence's
content, in order. -/
theorem splitLongSentence_content {B : Nat} (hB : B ≠ 0) (st : PyStr) :
    (splitLongSentence st B).flatMap contentOf = contentOf st := by
  rw [splitLongSentence_eq hB, List.flatMap_map]
  have hcongr : ∀ g ∈ sliceWindows B (pyWords st),
      ((fun g => contentOf (let ct := pyStrip (joinSpace g)
        if ct ≠ [] ∧ ct.getLast? ≠ some '.' then ct ++ ['.'] else ct)) g)
      = (fun g => g.flatMap contentOf) g := by
    intro g hg
    show contentOf _ = _
    have hbase : contentOf (pyStrip (joinSpace g)) = g.flatMap contentOf := by
      rw [contentOf_strip, contentOf_join]
    by_cases hif : pyStrip (joinSpace g) ≠ [] ∧ (pyStrip (joinSpace g)).getLast? ≠ some '.'
    · rw [if_pos hif, contentOf_dot, hbase]
    · rw [if_neg hif, hbase]
  rw [List.flatMap_congr hcongr, ← flatMap_flatten, sliceWindows_flatten hB,
    contentOf_flatten_words]

/-- Every sub-chunk of `_split_long_sentence` is within the budget. -/
theorem splitLongSentence_counts {B : Nat} (hB : B ≠ 0) (st : PyStr) :
    ∀ ch ∈ splitLongSentence st B, (pyWords ch).length ≤ B := by
  rw [splitLongSentence_eq hB]
  intro chx hchx
  rcases List.mem_map.mp hchx with ⟨g, hg, hEq⟩
  have hgne : g ≠ [] := ((sliceWindows_mem hB (pyWords st)) g hg).2
  have hgle : g.length ≤ B := ((sliceWindows_mem hB (pyWords st)) g hg).1
  have hmem : ∀ w ∈ g, w ≠ [] ∧ ∀ ch ∈ w, pyIsSpace ch = false :=
    fun w hw => pyWords_members st w (sliceWindows_mem_mem (pyWords st) g hg w hw)
  obtain ⟨hwords, hne⟩ := window_words hgne hmem
  subst hEq
  show (pyWords (if _ then _ else _)).length ≤ B
  by_cases hif : pyStrip (joinSpace g) ≠ [] ∧ (pyStrip (joinSpace g)).getLast? ≠ some '.'
  · rw [if_pos hif]
    obtain ⟨dl, hdl, hdls⟩ := pyStrip_getLast (joinSpace g) hne
    rw [pyWords_append_char_length (by decide) _ ⟨dl, hdl, hdls⟩, hwords]
    exact hgle
  · rw [if_neg hif, hwords]
    exact hgle

/-- A sentence over budget splits into at least two sub-chunks. -/
theorem splitLongSentence_two {B : Nat} (hB : B ≠ 0) (st : PyStr)
    (h : B < (pyWords st).length) : 2 ≤ (splitLongSentence st B).length := by
  rw [splitLongSentence_eq hB, List.length_map]
  exact sliceWindows_two hB (pyWords st) h

/-! ## Chunk-loop lemmas (for C7) -/

/-- Word count of a space-join is the sum of the word counts. -/
theorem count_join (L : List PyStr) :
    (pyWords (joinSpace L)).length = (L.map fun stx => (pyWords stx).length).sum := by
  rw [pyWords_join]
  induction L with
  | nil => rfl
  | cons a L ih =>
    rw [List.flatMap_cons, List.length_append, ih, List.map_cons, List.sum_cons]

/-- Content of a flushed chunk. -/
theorem flush_content (curr : List PyStr) :
    contentOf (pyStrip (joinSpace curr)) = curr.flatMap contentOf := by
  rw [contentOf_strip, contentOf_join]

/-- Word count of a flushed chunk. -/
theorem flush_count (curr : List PyStr) :
    (pyWords (pyStrip (joinSpace curr))).length
      = (curr.map fun stx => (pyWords stx).length).sum := by
  rw [pyWords_strip, count_join]

/-- Content of the conditional flush list. -/
theorem flushList_content (curr : List PyStr) :
    ((if curr ≠ [] then [pyStrip (joinSpace curr)] else []).flatMap contentOf)
      = curr.flatMap contentOf := by
  by_cases hc : curr ≠ []
  · rw [if_pos hc, List.flatMap_cons]
    simp [flush_content]
  · rw [if_neg hc]
    simp at hc
    subst hc
    rfl

/-- Budget bound for the conditional flush list. -/
theorem flushList_counts {B : Nat} (curr : List PyStr)
    (hle : (curr.map fun stx => (pyWords stx).length).sum ≤ B) :
    ∀ ch ∈ (if curr ≠ [] then [pyStrip (joinSpace curr)] else []),
      (pyWords ch).length ≤ B := by
  intro ch hch
  by_cases hc : curr ≠ []
  · rw [if_pos hc] at hch
    simp at hch
    subst hch
    rw [flush_count]
    exact hle
  · rw [if_neg hc] at hch
    simp at hch

/-- Invariant of the greedy accumulation loop of `_chunk_text`: the emitted
chunks carry the accumulated sentences' content followed by the remaining
sentences' content, and every emitted chunk is within the budget. -/
theorem chunkLoop_spec {B : Nat} (hB : B ≠ 0) :
    ∀ (rest curr : List PyStr) (cnt : Nat),
      cnt = (curr.map fun stx => (pyWords stx).length).sum →
      cnt ≤ B →
      (chunkLoop B rest curr cnt).flatMap contentOf
          = curr.flatMap contentOf ++ rest.flatMap (fun s => contentOf (s ++ ['.']))
      ∧ ∀ ch ∈ chunkLoop B rest curr cnt, (pyWords ch).length ≤ B := by
  intro rest
  induction rest with
  | nil =>
    intro curr cnt hcnt hle
    subst hcnt
    rw [chunkLoop]
    constructor
    · rw [show ([] : List PyStr).flatMap (fun s => contentOf (s ++ ['.'])) = [] from rfl,
        List.append_nil]
      exact flushList_content curr
    · exact flushList_counts curr hle
  | cons s rest ih =>
    intro curr cnt hcnt hle
    subst hcnt
    simp only [chunkLoop]
    by_cases hbig : B < sentenceTokenCount (s ++ ['.'])
    · rw [if_pos hbig]
      obtain ⟨ihc, ihb⟩ := ih [] 0 rfl (Nat.zero_le B)
      constructor
      · rw [List.flatMap_append, List.flatMap_append, flushList_content,
          splitLongSentence_content hB, ihc, List.flatMap_cons]
        simp
      · intro ch hch
        rcases List.mem_append.mp hch with hch | hch
        · rcases List.mem_append.mp hch with hch | hch
          · exact flushList_counts curr hle ch hch
          · exact splitLongSentence_counts hB (s ++ ['.']) ch hch
        · exact ihb ch hch
    · rw [if_neg hbig]
      have hnB : sentenceTokenCount (s ++ ['.']) ≤ B := Nat.le_of_not_lt hbig
      by_cases hfit :
          (curr.map fun stx => (pyWords stx).length).sum + sentenceTokenCount (s ++ ['.']) ≤ B
      · rw [if_pos hfit]
        have hsum : (curr.map fun stx => (pyWords stx).length).sum
              + sentenceTokenCount (s ++ ['.'])
            = ((curr ++ [s ++ ['.']]).map fun stx => (pyWords stx).length).sum := by
          rw [List.map_append, List.sum_append]
          rfl
        obtain ⟨ihc, ihb⟩ := ih (curr ++ [s ++ ['.']])
          ((curr.map fun stx => (pyWords stx).length).sum + sentenceTokenCount (s ++ ['.']))
          hsum hfit
        refine ⟨?_, ihb⟩
        rw [ihc, List.flatMap_append, List.flatMap_cons, List.flatMap_cons]
        simp
      · rw [if_neg hfit]
        have hsum1 : sentenceTokenCount (s ++ ['.'])
            = ([s ++ ['.']].map fun stx => (pyWords stx).length).sum := by
          simp [sentenceTokenCount, fallbackEncode]
        obtain ⟨ihc, ihb⟩ := ih [s ++ ['.']] (sentenceTokenCount (s ++ ['.'])) hsum1 hnB
        constructor
        · rw [List.flatMap_cons, ihc, flush_content, List.flatMap_cons, List.flatMap_cons]
          simp
        · intro ch hch
          rcases List.mem_cons.mp hch with hch | hch
          · subst hch
            rw [flush_count]
            exact hle
          · exact ihb ch hch

/-- The `splitOnDot` never returns the empty list of pieces. -/
theorem splitOnDot_ne_nil (t : PyStr) : splitOnDot t ≠ [] := by
  induction t with
  | nil => simp [splitOnDot]
  | cons c cs ih =>
    rw [splitOnDot]
    by_cases hc : c = '.'
    · rw [if_pos hc]
      simp
    · rw [if_neg hc]
      cases hsp : splitOnDot cs with
      | nil => exact absurd hsp ih
      | cons q qs => simp

/-- Pieces produced by `splitOnDot` contain no period. -/
theorem splitOnDot_no_dot (t : PyStr) : ∀ p ∈ splitOnDot t, '.' ∉ p := by
  induction t with
  | nil =>
    intro p hp
    simp [splitOnDot] at hp
    subst hp
    simp
  | cons c cs ih =>
    intro p hp
    rw [splitOnDot] at hp
    by_cases hc : c = '.'
    · rw [if_pos hc] at hp
      rcases List.mem_cons.mp hp with hp | hp
      · subst hp; simp
      · exact ih p hp
    · rw [if_neg hc] at hp
      cases hsp : splitOnDot cs with
      | nil => exact absurd hsp (splitOnDot_ne_nil cs)
      | cons q qs =>
        rw [hsp] at hp
        simp only [List.modifyHead] at hp
        rcases List.mem_cons.mp hp with hp | hp
        · subst hp
          intro hmem
          rcases List.mem_cons.mp hmem with hmem | hmem
          · exact hc hmem.symm
          · exact ih q (hsp ▸ List.mem_cons_self q qs) hmem
        · exact ih p (hsp ▸ List.mem_cons_of_mem q hp)

/-- Sentences of `_chunk_text` contain no period. -/
theorem sentencesOf_no_dot (text : PyStr) : ∀ s ∈ sentencesOf text, '.' ∉ s := by
  intro s hs hdot
  rw [sentencesOf] at hs
  obtain ⟨hs, -⟩ := List.mem_filter.mp hs
  obtain ⟨p, hp, hps⟩ := List.mem_map.mp hs
  subst hps
  exact splitOnDot_no_dot text p hp (mem_pyStrip hdot)

/-- Content of a period-free string is just its words. -/
theorem contentOf_eq_words {s : PyStr} (h : '.' ∉ s) : contentOf s = pyWords s := by
  rw [contentOf, dropDots, List.filter_eq_self.mpr]
  intro a ha
  simp only [ne_eq, decide_eq_true_eq]
  intro he
  subst he
  exact h ha

/-- The effective budget of `_chunk_text` under the fallback tokenizer. -/
theorem fallback_budget (maxTokens : Nat) :
    getMaxChunkTokens fallbackTokSpec maxTokens = min maxTokens 510 := rfl

/-- A positive caller budget gives a positive effective budget. -/
theorem fallback_budget_pos {maxTokens : Nat} (hmt : 1 ≤ maxTokens) :
    getMaxChunkTokens fallbackTokSpec maxTokens ≠ 0 := by
  rw [fallback_budget, Nat.min_def]
  split <;> omega

/-- C7: under the repository's fallback tokenizer, `_chunk_text` with a
positive budget returns chunks in original order whose combined content
(periods and whitespace normalized away) is exactly the concatenated word
content of the sentences — nothing dropped, nothing duplicated; every
chunk's token count is within the effective budget
`min(max_tokens, model_max_length − special-token overhead)` (510 for the
fallback tokenizer, with a model max above 100000 treated as unbounded);
any single sentence over budget is split by `_split_long_sentence` into at
least two sub-chunks, each within budget; and empty text yields the empty
sequence. -/
theorem chunk_text_round_trip (text : PyStr) (maxTokens : Nat) (htext : text ≠ [])
    (hmt : 1 ≤ maxTokens) :
    chunkText [] maxTokens = []
    ∧ (chunkText text maxTokens).flatMap contentOf = (sentencesOf text).flatMap pyWords
    ∧ (∀ c ∈ chunkText text maxTokens,
        (fallbackEncode c).length ≤ getMaxChunkTokens fallbackTokSpec maxTokens)
    ∧ (∀ st : PyStr,
        getMaxChunkTokens fallbackTokSpec maxTokens < (fallbackEncode st).length →
          2 ≤ (splitLongSentence st (getMaxChunkTokens fallbackTokSpec maxTokens)).length
          ∧ ∀ c ∈ splitLongSentence st (getMaxChunkTokens fallbackTokSpec maxTokens),
              (fallbackEncode c).length ≤ getMaxChunkTokens fallbackTokSpec maxTokens) := by
  have hB : getMaxChunkTokens fallbackTokSpec maxTokens ≠ 0 := fallback_budget_pos hmt
  have hloop := chunkLoop_spec hB (sentencesOf text) [] 0 rfl (Nat.zero_le _)
  have hchunk : chunkText text maxTokens
      = chunkLoop (getMaxChunkTokens fallbackTokSpec maxTokens) (sentencesOf text) [] 0 := by
    rw [chunkText, if_neg htext]
  refine ⟨rfl, ?_, ?_, ?_⟩
  · rw [hchunk, hloop.1, List.flatMap_nil, List.nil_append]
    refine List.flatMap_congr ?_
    intro s hs
    rw [contentOf_dot, contentOf_eq_words (sentencesOf_no_dot text s hs)]
  · intro c hc
    rw [hchunk] at hc
    exact hloop.2 c hc
  · intro st hst
    exact ⟨splitLongSentence_two hB st hst,
      splitLongSentence_counts hB st⟩

/-- Witness for C7 at the text `"a. b."` with caller budget 1 (effective
budget `min 1 510 = 1`). -/
theorem chunk_text_round_trip_witness :
    (("a. b.".toList : PyStr) ≠ [] ∧ 1 ≤ 1)
    ∧ (chunkText [] 1 = []
       ∧ (chunkText ("a. b.".toList) 1).flatMap contentOf
           = (sentencesOf ("a. b.".toList)).flatMap pyWords
       ∧ (∀ c ∈ chunkText ("a. b.".toList) 1,
           (fallbackEncode c).length ≤ getMaxChunkTokens fallbackTokSpec 1)
       ∧ (∀ st : PyStr,
           getMaxChunkTokens fallbackTokSpec 1 < (fallbackEncode st).length →
             2 ≤ (splitLongSentence st (getMaxChunkTokens fallbackTokSpec 1)).length
             ∧ ∀ c ∈ splitLongSentence st (getMaxChunkTokens fallbackTokSpec 1),
                 (fallbackEncode c).length ≤ getMaxChunkTokens fallbackTokSpec 1)) :=
  ⟨⟨by decide, le_refl 1⟩,
   chunk_text_round_trip ("a. b.".toList) 1 (by decide) (le_refl 1)⟩
